import Mathlib

/-!
# Issue edit command: batch edit of issues

A shallow embedding of `pkg/cmd/issue/edit/edit.go` (the `RunE` closure of
`NewCmdEdit`, and `editRun`).

* Collaborators that the Go code reaches through function values or package
  functions (`HttpClient`, `FieldsToEditSurvey`, `FetchOptions`,
  `IssuesFromArgsWithFields`, `UpdateIssue`, ...) are fields of function type:
  every statement below is quantified over all of them.
* A call that mutates its `*Editable` argument and returns an `error` is a
  function `Editable → Except Err Editable`.
* The goroutines of the `errgroup.Group` are a step machine driven by an explicit
  schedule; `editRun` is a function of that schedule. A goroutine assigns the result of
  its update to the variable `err` of `editRun` (line 232, `err = ...`: the closure declares
  no `err` of its own outside the interactive block), which all goroutines share, and reads
  it back (line 233); the machine lets the other goroutines move between these accesses.
  The accesses are taken one at a time, in the order of the schedule.
* The progress indicator of `opts.IO` is left out: it does not influence control flow.
-/

namespace IssueEdit

/-! ## Errors -/

/-- Go `error` values: `cmdutil.FlagErrorf` makes a `flag` error, everything else
is `other`. A nil error is `none : Option Err`. -/
inductive Err where
  | flag (msg : String)
  | other (msg : String)
  deriving DecidableEq, Repr

/-! ## Data model (`prShared.Editable`, `api.Issue`) -/

/-- Modelled from the spec: `prShared.EditableString` (declared in package `pr/shared`, outside
`edit.go`), the spec's `ScalarEdit{edited, value, default}`. -/
structure EditableString where
  Value : String := ""
  Default : String := ""
  Edited : Bool := false
  deriving DecidableEq, Repr

/-- Modelled from the spec: `prShared.EditableSlice` (declared in package `pr/shared`,
outside `edit.go`), the spec's `SetEdit{edited, toAdd, toRemove, default}`; the sets are Go string
slices, kept as lists. -/
structure EditableSlice where
  Add : List String := []
  Remove : List String := []
  Default : List String := []
  Edited : Bool := false
  deriving DecidableEq, Repr

/-- Modelled from the spec: `prShared.EditableProjects` (declared in package `pr/shared`,
outside `edit.go`): a set edit together with the `ProjectItems` map that `editRun` fills
(project id ↦ item id), kept as an association list. -/
structure EditableProjects extends EditableSlice where
  ProjectItems : List (String × String) := []
  deriving DecidableEq, Repr

/-- Modelled from the spec: `prShared.Editable` (declared outside `edit.go`): the
spec's EditSpec with the six fields the spec and `edit.go` name. -/
structure Editable where
  Title : EditableString := {}
  Body : EditableString := {}
  Assignees : EditableSlice := {}
  Labels : EditableSlice := {}
  Projects : EditableProjects := {}
  Milestone : EditableString := {}
  deriving DecidableEq, Repr

/-- Modelled from the spec: `Editable.Dirty` (defined outside `edit.go`). "A FieldEdit is
considered dirty iff `edited == true`"; the spec is dirty when some field is. -/
def Editable.Dirty (e : Editable) : Bool :=
  e.Title.Edited || e.Body.Edited || e.Assignees.Edited || e.Labels.Edited ||
    e.Projects.Edited || e.Milestone.Edited

/-- Modelled from the spec: `Editable.Clone` (defined outside `edit.go`): "a deep,
independent copy of `spec`". Values here carry no sharing, so the copy has the same
field values. -/
def Editable.Clone (e : Editable) : Editable :=
  { Title := { Value := e.Title.Value, Default := e.Title.Default, Edited := e.Title.Edited }
    Body := { Value := e.Body.Value, Default := e.Body.Default, Edited := e.Body.Edited }
    Assignees := { Add := e.Assignees.Add, Remove := e.Assignees.Remove,
                   Default := e.Assignees.Default, Edited := e.Assignees.Edited }
    Labels := { Add := e.Labels.Add, Remove := e.Labels.Remove,
                Default := e.Labels.Default, Edited := e.Labels.Edited }
    Projects := { Add := e.Projects.Add, Remove := e.Projects.Remove,
                  Default := e.Projects.Default, Edited := e.Projects.Edited,
                  ProjectItems := e.Projects.ProjectItems }
    Milestone := { Value := e.Milestone.Value, Default := e.Milestone.Default,
                   Edited := e.Milestone.Edited } }

/-- A classic project card of an issue: `n.Project.Name`. -/
structure ProjectCard where
  ProjectName : String
  deriving DecidableEq, Repr

/-- A project item of an issue: `n.ID`, `n.Project.ID`, `n.Project.Title`. -/
structure ProjectItem where
  ID : String
  ProjectID : String
  ProjectTitle : String
  deriving DecidableEq, Repr

/-- Modelled from the spec: `api.Issue` (declared outside `edit.go`), the spec's
EntitySnapshot: id, url, the current value of every editable field, and the entity
kind. `Assignees` holds the logins of the assignee nodes, `Labels` the names of the label
nodes, `Milestone` is `none` for Go's nil pointer and otherwise the milestone's title. -/
structure Issue where
  ID : String
  URL : String
  Title : String := ""
  Body : String := ""
  Assignees : List String := []
  Labels : List String := []
  ProjectCards : List ProjectCard := []
  ProjectItems : List ProjectItem := []
  Milestone : Option String := none
  PullRequest : Bool := false
  deriving DecidableEq, Repr

/-- Modelled from the spec: `Issue.IsPullRequest` (defined outside `edit.go`), the
snapshot's entity kind. -/
def Issue.IsPullRequest (i : Issue) : Bool := i.PullRequest

/-- Modelled from the spec: `Assignees.Logins` (defined outside `edit.go`): the assignee
logins of the snapshot. -/
def Issue.Logins (i : Issue) : List String := i.Assignees

/-- Modelled from the spec: `Labels.Names` (defined outside `edit.go`): the label names of
the snapshot. -/
def Issue.Names (i : Issue) : List String := i.Labels

/-- Modelled from the spec: `ProjectCards.ProjectNames` (defined outside `edit.go`): the
names of the projects of the cards, in order. -/
def Issue.ProjectNames (i : Issue) : List String := i.ProjectCards.map (·.ProjectName)

/-- Modelled from the spec: `ProjectItems.ProjectTitles` (defined outside `edit.go`): the
titles of the projects of the items, in order. -/
def Issue.ProjectTitles (i : Issue) : List String := i.ProjectItems.map (·.ProjectTitle)

/-- Go's `m[k] = v` on a `map[string]string` kept as an association list: an existing
key gets the new value in place, a new key is added at the end. -/
def mapSet : List (String × String) → String → String → List (String × String)
  | [], k, v => [(k, v)]
  | (k', v') :: m, k, v => if k' = k then (k, v) :: m else (k', v') :: mapSet m k v

/-! ## Collaborators and options -/

/-- Calls made by `editRun`, in the order in which they are made. -/
inductive Event where
  | fieldsToEditSurvey (e : Editable)
  | issuesFromArgs (args : List String) (fields : List String)
  | fetchOptions (e : Editable)
  | setLimit (n : Int)
  | determineEditor
  | editFieldsSurvey (e : Editable) (editor : String)
  | updateIssue (id : String) (isPR : Bool) (e : Editable)
  deriving DecidableEq, Repr

/-- The package functions `editRun` calls on the remote side. `UpdateIssue` takes, before
the arguments of the Go call, the position of the calling task in the batch: the server
is not assumed to answer two calls with equal arguments alike. The http client and the
repository arguments of the Go calls are left out. -/
structure Remote where
  /-- The call `shared.IssuesFromArgsWithFields(httpClient, opts.BaseRepo, args, fields)`. -/
  IssuesFromArgsWithFields : List String → List String → Except Err (List Issue)
  /-- The call `prShared.UpdateIssue(httpClient, repo, id, isPR, editable)`; `none` is nil. -/
  UpdateIssue : Nat → String → Bool → Editable → Option Err

/-- The struct `EditOptions`. `HttpClient` is the error its call returns (`none`: a
client), `CanPrompt` stands for `opts.IO.CanPrompt()`; `DetermineEditor` and
`EditFieldsSurvey` take the position of the calling task first. `BaseRepo` is part of
`Remote.IssuesFromArgsWithFields`. -/
structure EditOptions where
  HttpClient : Option Err := none
  CanPrompt : Bool := false
  DetermineEditor : Nat → Except Err String := fun _ => .ok ""
  FieldsToEditSurvey : Editable → Except Err Editable := fun e => .ok e
  EditFieldsSurvey : Nat → Editable → String → Except Err Editable := fun _ e _ => .ok e
  FetchOptions : Editable → Except Err Editable := fun e => .ok e
  SelectorArgs : List String := []
  Interactive : Bool := false
  workers : Int := 0
  Editable : Editable := {}

/-- What a run of `editRun` leaves behind: the returned error (`none` for nil), the lines
written to `opts.IO.Out`, and the calls made. -/
structure Outcome where
  err : Option Err := none
  out : List String := []
  trace : List Event := []
  deriving DecidableEq, Repr

/-! ## The task group (`golang.org/x/sync/errgroup`) -/

/-- Where a goroutine stands: `start`, it has not called `UpdateIssue` yet; `called`, it has
assigned the result of `UpdateIssue` to `err` (line 232) and has not tested `err` yet
(line 233); `failing`, its test found `err` non-nil and it has not read `err` for its
`return err` yet (line 234). -/
inductive Stage where
  | start
  | called
  | failing
  deriving DecidableEq, Repr

/-- A goroutine started by `g.Go`: what its closure captures (the loop index and the two
variables copied "to capture in the go routine"), and where it stands. -/
structure Task where
  idx : Nat
  issue : Issue
  editable : Editable
  stage : Stage := .start
  deriving DecidableEq, Repr

/-- An `errgroup.Group`: the capacity of its semaphore (`none`: no semaphore, no limit),
the goroutines started by `Go` that have not returned yet, and the error kept by `errOnce`. -/
structure Group where
  limit : Option Nat := none
  running : List Task := []
  err : Option Err := none
  deriving DecidableEq, Repr

/-- The library's `SetLimit`: "A negative value indicates no limit"; otherwise the
semaphore gets capacity `n`. -/
def Group.SetLimit (g : Group) (n : Int) : Group :=
  if n < 0 then { g with limit := none } else { g with limit := some n.toNat }

/-- Whether `Go` can start a goroutine now (a slot of the semaphore is free); when it
cannot, `Go` blocks. -/
def Group.free (g : Group) : Bool :=
  match g.limit with
  | none => true
  | some k => decide (g.running.length < k)

/-- What `errOnce.Do` does when a goroutine returns the non-nil `err`: the first one is kept. -/
def Group.record (g : Group) (err : Err) : Group :=
  match g.err with
  | some _ => g
  | none => { g with err := some err }

/-- The goroutine started for position `idx` has returned (`g.done`). -/
def Group.leave (g : Group) (idx : Nat) : Group :=
  { g with running := g.running.filter (fun t => t.idx != idx) }

/-- The goroutine started for position `idx` has reached the stage `stage`. -/
def Group.setStage (g : Group) (idx : Nat) (stage : Stage) : Group :=
  { g with running := g.running.map (fun t => if t.idx == idx then { t with stage := stage } else t) }

/-! ## `editRun` -/

/-- The fields to fetch (`lookupFields`), lines 161-174. -/
def lookupFields (editable : Editable) : List String :=
  let lookupFields := ["id", "number", "title", "body", "url"]
  let lookupFields := if editable.Assignees.Edited then lookupFields ++ ["assignees"] else lookupFields
  let lookupFields := if editable.Labels.Edited then lookupFields ++ ["labels"] else lookupFields
  let lookupFields :=
    if editable.Projects.Edited then (lookupFields ++ ["projectCards"]) ++ ["projectItems"]
    else lookupFields
  let lookupFields := if editable.Milestone.Edited then lookupFields ++ ["milestone"] else lookupFields
  lookupFields

/-- The first statements of the goroutine (lines 206-218): the defaults of the task's
own `editable` are taken from its issue. -/
def setDefaults (editable : Editable) (issue : Issue) : Editable :=
  let editable := { editable with Title := { editable.Title with Default := issue.Title } }
  let editable := { editable with Body := { editable.Body with Default := issue.Body } }
  let editable := { editable with Assignees := { editable.Assignees with Default := issue.Logins } }
  let editable := { editable with Labels := { editable.Labels with Default := issue.Names } }
  let editable := { editable with
    Projects := { editable.Projects with Default := issue.ProjectNames ++ issue.ProjectTitles } }
  let projectItems := issue.ProjectItems.foldl (fun m n => mapSet m n.ProjectID n.ID) []
  let editable := { editable with Projects := { editable.Projects with ProjectItems := projectItems } }
  match issue.Milestone with
  | some title => { editable with Milestone := { editable.Milestone with Default := title } }
  | none => editable

/-- The function passed to `g.Go`, for the task at position `i`, up to the assignment of
line 232: the calls it makes, and either the error it returns from the interactive block
(`.error err`: the `err` of lines 222-229 is declared in this block), or the value of
`prShared.UpdateIssue`, which it assigns to the variable `err` of `editRun` (`.ok v`). -/
def task (api : Remote) (opts : EditOptions) (i : Nat) (issue : Issue) (editable : Editable) :
    List Event × Except Err (Option Err) :=
  let editable := setDefaults editable issue
  if opts.Interactive then
    match opts.DetermineEditor i with
    | .error err => ([.determineEditor], .error err)
    | .ok editorCommand =>
      match opts.EditFieldsSurvey i editable editorCommand with
      | .error err => ([.determineEditor, .editFieldsSurvey editable editorCommand], .error err)
      | .ok edited =>
        ([.determineEditor, .editFieldsSurvey editable editorCommand,
          .updateIssue issue.ID issue.IsPullRequest edited],
         .ok (api.UpdateIssue i issue.ID issue.IsPullRequest edited))
  else
    ([.updateIssue issue.ID issue.IsPullRequest editable],
     .ok (api.UpdateIssue i issue.ID issue.IsPullRequest editable))

/-- The state of the parallel part of `editRun`: the loop variable `i`, the group, the
variable `err` of `editRun` that the goroutines assign and read, the content of the channel
`issueURLs` in the order of the sends, and the calls made so far. -/
structure Batch where
  i : Nat := 0
  g : Group := {}
  err : Option Err := none
  issueURLs : List String := []
  trace : List Event := []
  deriving DecidableEq, Repr

/-- One move of the scheduler: `go`, the main goroutine runs one iteration of the loop
(it copies the variables and `g.Go` starts the goroutine); `move idx`, the goroutine
started for position `idx` makes its next move; `ret idx`, this goroutine runs on, with no
move of another in between, until it returns. -/
inductive Step where
  | go
  | ret (idx : Nat)
  | move (idx : Nat)
  deriving DecidableEq, Repr

/-- The next move of the goroutine started for position `idx` (`none`: it is not running).
At `start` it runs up to line 232: it makes its calls and either returns the error of the
interactive block or assigns the result of the update to `err`. At `called` it tests
`err` (line 233): nil, it sends its url and returns nil; non-nil, it goes on to
`return err`. At `failing` it reads `err` again and returns it; `errOnce` keeps a non-nil
value. The channel has capacity `len(issues)`, so the send never blocks. -/
def Batch.move (api : Remote) (opts : EditOptions) (b : Batch) (idx : Nat) : Option Batch :=
  match b.g.running.find? (fun t => t.idx == idx) with
  | none => none
  | some t =>
    match t.stage with
    | .start =>
      match task api opts t.idx t.issue t.editable with
      | (calls, .error err) =>
        some { b with g := (b.g.leave idx).record err, trace := b.trace ++ calls }
      | (calls, .ok v) =>
        some { b with err := v, g := b.g.setStage idx .called, trace := b.trace ++ calls }
    | .called =>
      match b.err with
      | none => some { b with g := b.g.leave idx, issueURLs := b.issueURLs ++ [t.issue.URL] }
      | some _ => some { b with g := b.g.setStage idx .failing }
    | .failing =>
      match b.err with
      | none => some { b with g := b.g.leave idx }
      | some err => some { b with g := (b.g.leave idx).record err }

/-- Whether the goroutine started for position `idx` is running. -/
def Batch.runs (b : Batch) (idx : Nat) : Bool :=
  b.g.running.any (fun t => t.idx == idx)

/-- The goroutine started for position `idx` makes its moves one after the other until it
has returned: at most three. -/
def Batch.ret (api : Remote) (opts : EditOptions) (b : Batch) (idx : Nat) : Option Batch :=
  match b.move api opts idx with
  | none => none
  | some b₁ =>
    if b₁.runs idx then
      match b₁.move api opts idx with
      | none => none
      | some b₂ => if b₂.runs idx then b₂.move api opts idx else some b₂
    else some b₁

/-- One move. `none`: the move is not possible in this state (`go` when the loop is over or
when `g.Go` blocks on the semaphore, a move of a goroutine that is not running). -/
def Batch.step (api : Remote) (opts : EditOptions) (issues : List Issue) (editable : Editable)
    (b : Batch) : Step → Option Batch
  | .go =>
    match issues[b.i]? with
    | none => none
    | some issue =>
      if b.g.free then
        some { b with
          i := b.i + 1,
          g := { b.g with
            running := b.g.running ++
              [{ idx := b.i, issue := issue, editable := editable.Clone }] } }
      else none
  | .ret idx => b.ret api opts idx
  | .move idx => b.move api opts idx

/-- The moves of a schedule, one after the other. -/
def Batch.run (api : Remote) (opts : EditOptions) (issues : List Issue) (editable : Editable) :
    Batch → List Step → Option Batch
  | b, [] => some b
  | b, s :: sched =>
    match b.step api opts issues editable s with
    | none => none
    | some b' => Batch.run api opts issues editable b' sched

/-- The function `editRun`, under the schedule `sched` of its parallel part. `none`: `sched`
is not a schedule of this run (a move is not possible, or at its end the loop is not
over or a goroutine has not returned, so that `g.Wait` has not returned). The paths that
return before the parallel part do not look at the schedule. When the loop starts `err` is
nil (line 187 has tested it); after the loop `err = g.Wait()` is the error of the group. -/
def editRun (api : Remote) (opts : EditOptions) (sched : List Step) : Option Outcome :=
  match opts.HttpClient with
  | some err => some { err := some err }
  | none =>
    let editable := opts.Editable
    let survey : List Event × Except Err Editable :=
      if opts.Interactive then ([.fieldsToEditSurvey editable], opts.FieldsToEditSurvey editable)
      else ([], .ok editable)
    match survey with
    | (t, .error err) => some { err := some err, trace := t }
    | (t, .ok editable) =>
      let lookupFields := lookupFields editable
      let t := t ++ [.issuesFromArgs opts.SelectorArgs lookupFields]
      match api.IssuesFromArgsWithFields opts.SelectorArgs lookupFields with
      | .error err => some { err := some err, trace := t }
      | .ok issues =>
        let t := t ++ [.fetchOptions editable]
        match opts.FetchOptions editable with
        | .error err => some { err := some err, trace := t }
        | .ok editable =>
          let workers := if opts.workers = 0 then 10 else opts.workers
          let g := Group.SetLimit {} workers
          let b : Batch := { g := g, err := none, trace := t ++ [.setLimit workers] }
          match Batch.run api opts issues editable b sched with
          | none => none
          | some b =>
            if b.i = issues.length ∧ b.g.running = [] then
              match b.g.err with
              | some err => some { err := some err, trace := b.trace }
              | none => some { err := none, out := b.issueURLs, trace := b.trace }
            else none

/-! ## `NewCmdEdit`: the `RunE` closure -/

/-- The command line as cobra hands it over: for every flag `some v` when the flag was
given, with value `v` (then `flags.Changed` holds), and `none` when it was not given. -/
structure Flags where
  title : Option String := none
  body : Option String := none
  bodyFile : Option String := none
  addAssignee : Option (List String) := none
  removeAssignee : Option (List String) := none
  addLabel : Option (List String) := none
  removeLabel : Option (List String) := none
  addProject : Option (List String) := none
  removeProject : Option (List String) := none
  milestone : Option String := none

/-- What `NewCmdEdit` takes from the factory `f` and from the packages `prShared` and
`cmdutil`. `ReadFile` is `cmdutil.ReadFile(·, opts.IO.In)`. -/
structure Factory where
  CanPrompt : Bool := false
  HttpClient : Option Err := none
  DetermineEditor : Nat → Except Err String := fun _ => .ok ""
  FieldsToEditSurvey : Editable → Except Err Editable := fun e => .ok e
  EditFieldsSurvey : Nat → Editable → String → Except Err Editable := fun _ e _ => .ok e
  FetchOptions : Editable → Except Err Editable := fun e => .ok e
  ReadFile : String → Except Err String := fun _ => .ok ""

/-- Calls made by `RunE` itself. -/
inductive Call where
  | readFile (file : String)
  | runF (opts : EditOptions)
  | editRun (opts : EditOptions)

/-- What a run of `RunE` leaves behind: the returned error, its own calls, and when it
ends in `editRun` the lines written and the calls made there. -/
structure CmdOutcome where
  err : Option Err := none
  calls : List Call := []
  out : List String := []
  trace : List Event := []

/-- Modelled from the spec: `cmdutil.MutuallyExclusive` (defined outside `edit.go`), the
check behind "mutually exclusive `--body` vs `--body-file`": an input error with the
given message when more than one of the conditions holds. -/
def MutuallyExclusive (message : String) (conditions : List Bool) : Option Err :=
  if (conditions.filter id).length > 1 then some (.flag message) else none

/-- The options `RunE` starts from: the struct built in `NewCmdEdit`, with the variables
that the flags are bound to (`StringVarP`, `StringSliceVar`) set by cobra: the given
value, or the flag's default value (`""`, nil). -/
def newOptions (f : Factory) (fl : Flags) : EditOptions :=
  { CanPrompt := f.CanPrompt
    HttpClient := f.HttpClient
    DetermineEditor := f.DetermineEditor
    FieldsToEditSurvey := f.FieldsToEditSurvey
    EditFieldsSurvey := f.EditFieldsSurvey
    FetchOptions := f.FetchOptions
    Editable :=
      { Title := { Value := fl.title.getD "" }
        Body := { Value := fl.body.getD "" }
        Assignees := { Add := fl.addAssignee.getD [], Remove := fl.removeAssignee.getD [] }
        Labels := { Add := fl.addLabel.getD [], Remove := fl.removeLabel.getD [] }
        Projects := { Add := fl.addProject.getD [], Remove := fl.removeProject.getD [] }
        Milestone := { Value := fl.milestone.getD "" } } }

/-- The first part of `RunE` (lines 69-114), the processing of the flags: the calls made,
and the error returned or the options as they stand before the two interactive checks. -/
def processFlags (f : Factory) (fl : Flags) (args : List String) :
    List Call × Except Err EditOptions :=
  let opts := newOptions f fl
  let bodyFile := fl.bodyFile.getD ""
  let opts := { opts with SelectorArgs := args }
  let bodyProvided := fl.body.isSome
  let bodyFileProvided := bodyFile != ""
  match MutuallyExclusive "specify only one of `--body` or `--body-file`"
      [bodyProvided, bodyFileProvided] with
  | some err => ([], .error err)
  | none =>
    let body : List Call × Except Err EditOptions :=
      if bodyProvided || bodyFileProvided then
        let opts := { opts with Editable.Body.Edited := true }
        if bodyFileProvided then
          match f.ReadFile bodyFile with
          | .error err => ([.readFile bodyFile], .error err)
          | .ok b => ([.readFile bodyFile], .ok { opts with Editable.Body.Value := b })
        else ([], .ok opts)
      else ([], .ok opts)
    match body with
    | (calls, .error err) => (calls, .error err)
    | (calls, .ok opts) =>
      let opts := if fl.title.isSome then { opts with Editable.Title.Edited := true } else opts
      let opts :=
        if fl.addAssignee.isSome || fl.removeAssignee.isSome then
          { opts with Editable.Assignees.Edited := true }
        else opts
      let opts :=
        if fl.addLabel.isSome || fl.removeLabel.isSome then
          { opts with Editable.Labels.Edited := true }
        else opts
      let opts :=
        if fl.addProject.isSome || fl.removeProject.isSome then
          { opts with Editable.Projects.Edited := true }
        else opts
      let opts :=
        if fl.milestone.isSome then { opts with Editable.Milestone.Edited := true } else opts
      let opts := if !opts.Editable.Dirty then { opts with Interactive := true } else opts
      (calls, .ok opts)

/-- The closure `RunE` of the command made by `NewCmdEdit(f, runF)`, on the flags `fl` and
the arguments `args`; `sched` is the schedule of `editRun` (`none` as for `editRun`). -/
def RunE (f : Factory) (runF : Option (EditOptions → Option Err)) (api : Remote)
    (fl : Flags) (args : List String) (sched : List Step) : Option CmdOutcome :=
  match processFlags f fl args with
  | (calls, .error err) => some { err := some err, calls := calls }
  | (calls, .ok opts) =>
    if opts.Interactive && !opts.CanPrompt then
      some { err := some (.flag "field to edit flag required when not running interactively"),
             calls := calls }
    else if opts.Interactive && decide (opts.SelectorArgs.length > 1) then
      some { err := some (.flag "multiple issues cannot be edited interactively"), calls := calls }
    else
      match runF with
      | some runF => some { err := runF opts, calls := calls ++ [.runF opts] }
      | none =>
        match editRun api opts sched with
        | none => none
        | some r =>
          some { err := r.err, calls := calls ++ [.editRun opts], out := r.out, trace := r.trace }

/-! ## Notions used in the statements -/

/-- What the goroutine `t` does up to line 232. -/
def Task.run (api : Remote) (opts : EditOptions) (t : Task) :
    List Event × Except Err (Option Err) :=
  task api opts t.idx t.issue t.editable

/-- Whether a goroutine is at `start`. -/
def Task.atStart (t : Task) : Bool :=
  match t.stage with
  | .start => true
  | _ => false

/-- The goroutines that the loop of `editRun` starts for the issues `issues`, the first of
them at position `k`: one for each issue, with its own clone of `editable`. -/
def tasksFrom (editable : Editable) : Nat → List Issue → List Task
  | _, [] => []
  | k, issue :: issues =>
    { idx := k, issue := issue, editable := editable.Clone } :: tasksFrom editable (k + 1) issues

/-- The goroutines of a batch that have not made their calls yet: those running that are
at `start`, and those the loop has not started yet. -/
def Batch.uncalled (issues : List Issue) (editable : Editable) (b : Batch) : List Task :=
  b.g.running.filter Task.atStart ++ tasksFrom editable b.i (issues.drop b.i)

/-- The running goroutines of a batch are those the loop started: their positions are
distinct and below the loop variable, and each holds the issue of its position and a
clone of the canonical `editable`. -/
def Batch.wf (issues : List Issue) (editable : Editable) (b : Batch) : Prop :=
  (b.g.running.map (·.idx)).Nodup ∧
  ∀ t ∈ b.g.running,
    t.idx < b.i ∧ issues[t.idx]? = some t.issue ∧ t.editable = editable.Clone

/-- The trace of a batch that started with the trace `t₀`: after `t₀`, the calls of the
goroutines that have made their calls, goroutine after goroutine; these goroutines and
those that have not made their calls yet are the goroutines of the batch. -/
def Batch.traced (api : Remote) (opts : EditOptions) (issues : List Issue) (editable : Editable)
    (t₀ : List Event) (b : Batch) : Prop :=
  ∃ order : List Task,
    (order ++ b.uncalled issues editable).Perm (tasksFrom editable 0 issues) ∧
    b.trace = t₀ ++ order.flatMap (fun t => (t.run api opts).1)

/-- The state of a batch in which no goroutine fails: `err` and the error of the group are
nil, no goroutine is on its way to `return err`, and the urls sent, those of the goroutines
running and those of the issues to come are the urls of the issues. -/
def Batch.noFailure (issues : List Issue) (ed : Editable) (b : Batch) : Prop :=
  b.wf issues ed ∧ b.err = none ∧ b.g.err = none ∧
  (∀ t ∈ b.g.running, t.stage ≠ .failing) ∧
  (b.issueURLs ++ (b.g.running.map (·.issue.URL) ++ (issues.drop b.i).map (·.URL))).Perm
    (issues.map (·.URL))

/-- What a goroutine returns when no other moves between its assignment of `err` and its
reads: the error of the interactive block, or the result of its own update. -/
def returned : Except Err (Option Err) → Option Err
  | .error err => some err
  | .ok v => v

/-- Two edits agree on everything that says what to change: for every field the flag
`Edited`, and the `Value` of a scalar field, the `Add` and `Remove` lists of a set field. -/
def sameEdits (a b : Editable) : Prop :=
  (a.Title.Edited = b.Title.Edited ∧ a.Title.Value = b.Title.Value) ∧
  (a.Body.Edited = b.Body.Edited ∧ a.Body.Value = b.Body.Value) ∧
  (a.Assignees.Edited = b.Assignees.Edited ∧ a.Assignees.Add = b.Assignees.Add ∧
    a.Assignees.Remove = b.Assignees.Remove) ∧
  (a.Labels.Edited = b.Labels.Edited ∧ a.Labels.Add = b.Labels.Add ∧
    a.Labels.Remove = b.Labels.Remove) ∧
  (a.Projects.Edited = b.Projects.Edited ∧ a.Projects.Add = b.Projects.Add ∧
    a.Projects.Remove = b.Projects.Remove) ∧
  (a.Milestone.Edited = b.Milestone.Edited ∧ a.Milestone.Value = b.Milestone.Value)

/-- The `updateIssue` calls of a trace: id, pull-request flag and edit of each, in order. -/
def updateCalls : List Event → List (String × Bool × Editable)
  | [] => []
  | .updateIssue id isPR e :: t => (id, isPR, e) :: updateCalls t
  | _ :: t => updateCalls t

/-- "Snapshots and shared options have been fetched": `editRun` reaches its parallel part,
with the issues `issues` and with `editable` as left by `FetchOptions`. -/
def fetched (api : Remote) (opts : EditOptions) : Option (List Issue × Editable) :=
  match opts.HttpClient with
  | some _ => none
  | none =>
    match (if opts.Interactive then opts.FieldsToEditSurvey opts.Editable else .ok opts.Editable) with
    | .error _ => none
    | .ok editable =>
      match api.IssuesFromArgsWithFields opts.SelectorArgs (lookupFields editable) with
      | .error _ => none
      | .ok issues =>
        match opts.FetchOptions editable with
        | .error _ => none
        | .ok editable => some (issues, editable)

/-- The `editable` from which `editRun` computes `lookupFields`: `opts.Editable`, after the
survey in interactive mode; `none` when `editRun` returns before (no http client, or the
survey fails). -/
def surveyed (opts : EditOptions) : Option Editable :=
  match opts.HttpClient with
  | some _ => none
  | none =>
    match (if opts.Interactive then opts.FieldsToEditSurvey opts.Editable else .ok opts.Editable) with
    | .error _ => none
    | .ok editable => some editable

/-- The `fetchOptions` calls of a trace: the argument of each, in order. -/
def fetchOptionsCalls : List Event → List Editable
  | [] => []
  | .fetchOptions e :: t => e :: fetchOptionsCalls t
  | _ :: t => fetchOptionsCalls t

/-- The calls `editRun` has made when its loop starts, where `ed₀` is the `editable` that
went into `FetchOptions`. -/
def prologue (opts : EditOptions) (ed₀ : Editable) : List Event :=
  (if opts.Interactive then [Event.fieldsToEditSurvey opts.Editable] else []) ++
    [.issuesFromArgs opts.SelectorArgs (lookupFields ed₀), .fetchOptions ed₀,
     .setLimit (if opts.workers = 0 then 10 else opts.workers)]

/-- The schedule that runs the goroutines one after the other: positions `k`, ..., `k + m - 1`. -/
def seqSched : Nat → Nat → List Step
  | _, 0 => []
  | k, m + 1 => .go :: .ret k :: seqSched (k + 1) m


/-! ## Concrete batches -/

/-- A plain issue. -/
def issue1 : Issue := { ID := "I_1", URL := "https://example.com/issues/1", Title := "one" }

/-- A second issue, with labels. -/
def issue2 : Issue :=
  { ID := "I_2", URL := "https://example.com/issues/2", Title := "two", Labels := ["docs"] }

/-- A pull request, with a milestone. -/
def issue3 : Issue :=
  { ID := "PR_3", URL := "https://example.com/pull/3", Title := "three", Labels := ["core"],
    Milestone := some "v1", PullRequest := true }

/-- A remote with the two issues `issue1`, `issue2`, on which the update of the second
(position 1) fails with "forbidden". -/
def forbiddenSecond : Remote :=
  { IssuesFromArgsWithFields := fun _ _ => .ok [issue1, issue2]
    UpdateIssue := fun i _ _ _ => if i = 1 then some (.other "forbidden") else none }

/-- Options of `issue edit 1 2 --add-label bug`. -/
def addBug : EditOptions :=
  { SelectorArgs := ["1", "2"], Editable := { Labels := { Add := ["bug"], Edited := true } } }

/-- A remote with the three issues, on which every update succeeds. -/
def allOk : Remote :=
  { IssuesFromArgsWithFields := fun _ _ => .ok [issue1, issue2, issue3]
    UpdateIssue := fun _ _ _ _ => none }

/-- A remote with eleven issues (eleven times `issue1`), on which every update succeeds. -/
def elevenIssues : Remote :=
  { IssuesFromArgsWithFields := fun _ _ => .ok (List.replicate 11 issue1)
    UpdateIssue := fun _ _ _ _ => none }

/-- The options `addBug` with the worker count set to `-1`. -/
def negativeWorkers : EditOptions := { addBug with workers := -1 }

/-- A canonical spec whose milestone default slot holds "v1". -/
def specV1 : Editable := { Milestone := { Default := "v1" } }

/-- The same spec with "v2" in the milestone default slot: the two differ in a default
slot only. -/
def specV2 : Editable := { Milestone := { Default := "v2" } }

/-- A remote with the single issue `issue1`, which has no milestone; the update succeeds. -/
def oneIssue : Remote :=
  { IssuesFromArgsWithFields := fun _ _ => .ok [issue1]
    UpdateIssue := fun _ _ _ _ => none }

/-- Options whose canonical spec is `specV1`. -/
def optsV1 : EditOptions := { SelectorArgs := ["1"], Editable := specV1 }

/-- Options whose canonical spec is `specV2`. -/
def optsV2 : EditOptions := { SelectorArgs := ["1"], Editable := specV2 }

/-- The flags of `issue edit 1 2 --add-label bug`. -/
def bugFlags : Flags := { addLabel := some ["bug"] }

/-- The options with which the processing of the flags `bugFlags` ends. -/
def bugFlagsOptions : EditOptions :=
  match (processFlags {} bugFlags ["1", "2"]).2 with
  | .ok opts => opts
  | .error _ => {}

/-- The flags of `issue edit 1 --body text --body-file body.txt`. -/
def bodyAndFile : Flags := { body := some "text", bodyFile := some "body.txt" }

/-- The flags of `issue edit 1 --body text --body-file ""`: both flags are given, the
second with the empty value. -/
def bodyAndEmptyFile : Flags := { body := some "text", bodyFile := some "" }

/-! ## Clones in a store

The values above carry no sharing. To speak of aliasing, the containers that a Go
`Editable` refers to (the backing arrays of its string slices, its project-item map) are
cells of a store, and an `Editable` holds their addresses. -/

/-- A container of the store: the elements of a string slice, or the entries of a map. -/
inductive Cell where
  | slice (v : List String)
  | map (m : List (String × String))
  deriving DecidableEq, Repr

/-- The store: the cell at every allocated address. -/
abbrev Store := List Cell

/-- The slice at an address (empty when there is none). -/
def Store.slice (s : Store) (a : Nat) : List String :=
  match s[a]? with
  | some (.slice v) => v
  | _ => []

/-- The map at an address (empty when there is none). -/
def Store.map (s : Store) (a : Nat) : List (String × String) :=
  match s[a]? with
  | some (.map m) => m
  | _ => []

/-- An `EditableSlice` as Go holds it: its three slices are addresses. -/
structure SliceRefs where
  Add : Nat
  Remove : Nat
  Default : Nat
  Edited : Bool := false
  deriving DecidableEq, Repr

/-- An `EditableProjects` as Go holds it: the slices and the map are addresses. -/
structure ProjectRefs extends SliceRefs where
  ProjectItems : Nat
  deriving DecidableEq, Repr

/-- An `Editable` as Go holds it: the scalar fields by value, the set-valued fields by
address. -/
structure EditableRefs where
  Title : EditableString := {}
  Body : EditableString := {}
  Assignees : SliceRefs
  Labels : SliceRefs
  Projects : ProjectRefs
  Milestone : EditableString := {}
  deriving DecidableEq, Repr

/-- The addresses an `Editable` holds. -/
def EditableRefs.addrs (e : EditableRefs) : List Nat :=
  [e.Assignees.Add, e.Assignees.Remove, e.Assignees.Default,
   e.Labels.Add, e.Labels.Remove, e.Labels.Default,
   e.Projects.Add, e.Projects.Remove, e.Projects.Default, e.Projects.ProjectItems]

/-- The value of an `Editable` in a store: what its fields read. -/
def EditableRefs.value (e : EditableRefs) (s : Store) : Editable :=
  { Title := e.Title
    Body := e.Body
    Assignees := { Add := s.slice e.Assignees.Add, Remove := s.slice e.Assignees.Remove,
                   Default := s.slice e.Assignees.Default, Edited := e.Assignees.Edited }
    Labels := { Add := s.slice e.Labels.Add, Remove := s.slice e.Labels.Remove,
                Default := s.slice e.Labels.Default, Edited := e.Labels.Edited }
    Projects := { Add := s.slice e.Projects.Add, Remove := s.slice e.Projects.Remove,
                  Default := s.slice e.Projects.Default, Edited := e.Projects.Edited,
                  ProjectItems := s.map e.Projects.ProjectItems }
    Milestone := e.Milestone }

/-- Modelled from the spec: `Editable.Clone` on a store (the method is defined outside
`edit.go`): "a deep, independent copy" that "must not alias any mutable container (sets,
maps) with the canonical spec or with any other task's clone": every slice and the map are
copied into cells allocated at the end of the store, and the clone holds their addresses. -/
def cloneRefs (s : Store) (e : EditableRefs) : Store × EditableRefs :=
  let n := s.length
  (s ++ [.slice (s.slice e.Assignees.Add), .slice (s.slice e.Assignees.Remove),
         .slice (s.slice e.Assignees.Default),
         .slice (s.slice e.Labels.Add), .slice (s.slice e.Labels.Remove),
         .slice (s.slice e.Labels.Default),
         .slice (s.slice e.Projects.Add), .slice (s.slice e.Projects.Remove),
         .slice (s.slice e.Projects.Default), .map (s.map e.Projects.ProjectItems)],
   { Title := e.Title
     Body := e.Body
     Assignees := { Add := n, Remove := n + 1, Default := n + 2, Edited := e.Assignees.Edited }
     Labels := { Add := n + 3, Remove := n + 4, Default := n + 5, Edited := e.Labels.Edited }
     Projects := { Add := n + 6, Remove := n + 7, Default := n + 8,
                   Edited := e.Projects.Edited, ProjectItems := n + 9 }
     Milestone := e.Milestone })

/-- The clones that the loop of `editRun` makes of the canonical `editable`, one for each of
`n` issues (`editable := editable.Clone()`), and the store after them. -/
def cloneAll (s : Store) (e : EditableRefs) : Nat → Store × List EditableRefs
  | 0 => (s, [])
  | n + 1 =>
    let sc := cloneRefs s e
    let rest := cloneAll sc.1 e n
    (rest.1, sc.2 :: rest.2)

/-- A mutation of containers: the cells at the given addresses get new contents, one after
the other (an address that is not allocated is left alone). -/
def Store.mutate (s : Store) : List (Nat × Cell) → Store
  | [] => s
  | (a, c) :: ws => Store.mutate (s.set a c) ws

/-- A store with the containers of one canonical spec: the labels to add are at address 3. -/
def canonicalStore : Store :=
  [.slice [], .slice [], .slice [], .slice ["bug"], .slice [], .slice [], .slice [], .slice [],
   .slice [], .map []]

/-- The canonical spec of `addBug` on `canonicalStore`. -/
def canonicalRefs : EditableRefs :=
  { Assignees := { Add := 0, Remove := 1, Default := 2 }
    Labels := { Add := 3, Remove := 4, Default := 5, Edited := true }
    Projects := { Add := 6, Remove := 7, Default := 8, ProjectItems := 9 } }

end IssueEdit

/-!
# Release list: fetching the releases

A shallow embedding of `fetchReleases` of `pkg/cmd/release/list/http.go`. The server is the
list of its answers to the successive `gql.Query` calls, in order; `fetchReleases` is a
function of it, and records the variables of the queries it makes.
-/

namespace ReleaseList

/-- The struct `Release`; the two times are kept as numbers. -/
structure Release where
  Name : String := ""
  TagName : String := ""
  IsDraft : Bool := false
  IsLatest : Bool := false
  IsPrerelease : Bool := false
  CreatedAt : Int := 0
  PublishedAt : Int := 0
  deriving DecidableEq, Repr

/-- One answer of the server, `query.Repository.Releases`: the nodes and the page info. -/
structure Page where
  Nodes : List Release := []
  HasNextPage : Bool := false
  EndCursor : String := ""
  deriving DecidableEq, Repr

/-- The variables of one query that change the answer: `perPage` and `endCursor`
(`none` for the nil pointer of the first query). -/
structure Request where
  perPage : Int
  endCursor : Option String
  deriving DecidableEq, Repr

/-- What `fetchReleases` returns, the releases (`[]` for nil) and the error, and the queries
it has made. -/
structure Fetched where
  releases : List Release := []
  err : Option IssueEdit.Err := none
  requests : List Request := []
  deriving DecidableEq, Repr

/-- The inner loop of `fetchReleases` over the nodes of one page, from the releases
collected so far: the releases after it, and whether it left by `break loop`. -/
def scanNodes (limit : Int) (excludeDrafts excludePreReleases : Bool) :
    List Release → List Release → List Release × Bool
  | releases, [] => (releases, false)
  | releases, r :: nodes =>
    if excludeDrafts && r.IsDraft then
      scanNodes limit excludeDrafts excludePreReleases releases nodes
    else if excludePreReleases && r.IsPrerelease then
      scanNodes limit excludeDrafts excludePreReleases releases nodes
    else
      let releases := releases ++ [r]
      if (releases.length : Int) = limit then (releases, true)
      else scanNodes limit excludeDrafts excludePreReleases releases nodes

/-- The loop `loop:` of `fetchReleases`, on the remaining answers of the server, from the
current `endCursor`, the releases collected and the queries made so far. `none`: the loop
makes a query for which the list holds no answer. -/
def queryLoop (limit perPage : Int) (excludeDrafts excludePreReleases : Bool) :
    List (Except IssueEdit.Err Page) → Option String → List Release → List Request →
    Option Fetched
  | [], _, _, _ => none
  | .error err :: _, endCursor, _, requests =>
    some { releases := [], err := some err, requests := requests ++ [⟨perPage, endCursor⟩] }
  | .ok query :: answers, endCursor, releases, requests =>
    let requests := requests ++ [⟨perPage, endCursor⟩]
    match scanNodes limit excludeDrafts excludePreReleases releases query.Nodes with
    | (releases, true) => some { releases := releases, requests := requests }
    | (releases, false) =>
      if !query.HasNextPage then some { releases := releases, requests := requests }
      else
        queryLoop limit perPage excludeDrafts excludePreReleases answers (some query.EndCursor)
          releases requests

/-- The function `fetchReleases`, against the answers `answers` of the server. -/
def fetchReleases (limit : Int) (excludeDrafts excludePreReleases : Bool)
    (answers : List (Except IssueEdit.Err Page)) : Option Fetched :=
  let perPage := if limit > 100 then 100 else limit
  queryLoop limit perPage excludeDrafts excludePreReleases answers none [] []

/-- A release passes the filters: it is not a draft when drafts are excluded, and not a
prerelease when prereleases are excluded. -/
def passes (excludeDrafts excludePreReleases : Bool) (r : Release) : Bool :=
  !(excludeDrafts && r.IsDraft) && !(excludePreReleases && r.IsPrerelease)

/-- The releases of a list of pages that pass the filters, in the order of the server. -/
def passing (excludeDrafts excludePreReleases : Bool) (pages : List Page) : List Release :=
  (pages.flatMap (·.Nodes)).filter (passes excludeDrafts excludePreReleases)

/-- Three releases: a draft, a prerelease and a plain release. -/
def draftRelease : Release := { Name := "draft", TagName := "v3", IsDraft := true }

/-- A prerelease. -/
def preRelease : Release := { Name := "rc", TagName := "v2-rc", IsPrerelease := true }

/-- A plain release. -/
def plainRelease : Release := { Name := "two", TagName := "v2", IsLatest := true }

/-- An older plain release. -/
def oldRelease : Release := { Name := "one", TagName := "v1" }

/-- A first page, with a next page. -/
def page1 : Page :=
  { Nodes := [draftRelease, plainRelease], HasNextPage := true, EndCursor := "c1" }

/-- A last page. -/
def page2 : Page := { Nodes := [preRelease, oldRelease], HasNextPage := false, EndCursor := "c2" }

end ReleaseList

namespace IssueEdit


/-! ## The task group: every schedule returns every goroutine once -/

theorem tasksFrom_idx (ed : Editable) (l : List Issue) (k : Nat) :
    (tasksFrom ed k l).map (·.idx) = List.range' k l.length := by
  induction l generalizing k with
  | nil => simp [tasksFrom]
  | cons x xs ih => simp [tasksFrom, ih, List.range'_succ]


theorem tasksFrom_drop (ed : Editable) (issues : List Issue) (i : Nat) (issue : Issue)
    (h : issues[i]? = some issue) :
    tasksFrom ed i (issues.drop i)
      = { idx := i, issue := issue, editable := ed.Clone } ::
          tasksFrom ed (i + 1) (issues.drop (i + 1)) := by
  obtain ⟨hlt, rfl⟩ := List.getElem?_eq_some_iff.mp h
  rw [List.drop_eq_getElem_cons hlt]
  simp [tasksFrom]

theorem find_filter_perm (l : List Task) (k : Nat) (t : Task)
    (hnd : (l.map (·.idx)).Nodup) (hf : l.find? (fun t => t.idx == k) = some t) :
    l.Perm (t :: l.filter (fun t => t.idx != k)) := by
  induction l with
  | nil => simp at hf
  | cons x xs ih =>
    simp only [List.map_cons, List.nodup_cons] at hnd
    by_cases hx : x.idx = k
    · have hxt : x = t := by simpa [List.find?_cons, hx] using hf
      subst hxt
      have hfil : xs.filter (fun t => t.idx != k) = xs := by
        apply List.filter_eq_self.mpr
        intro a ha
        have : a.idx ≠ k := by
          intro hak
          apply hnd.1
          rw [hx, ← hak]
          exact List.mem_map_of_mem _ ha
        simpa using this
      have e : List.filter (fun t : Task => t.idx != k) (x :: xs)
          = List.filter (fun t : Task => t.idx != k) xs := by
        simp [List.filter_cons, hx]
      rw [e, hfil]
    · have hxk : (x.idx == k) = false := by simpa using hx
      have hxk' : (x.idx != k) = true := by simpa using hx
      have hf' : xs.find? (fun t => t.idx == k) = some t := by
        simpa [List.find?_cons, hxk] using hf
      have := ih hnd.2 hf'
      have e : List.filter (fun t : Task => t.idx != k) (x :: xs)
          = x :: List.filter (fun t : Task => t.idx != k) xs := by
        simp [List.filter_cons, hx]
      rw [e]
      exact (List.Perm.cons x this).trans (List.Perm.swap t x _)


theorem mem_tasksFrom (ed : Editable) (issues : List Issue) (k : Nat) (t : Task)
    (h : t ∈ tasksFrom ed k issues) :
    ∃ i, issues[i]? = some t.issue ∧ t.idx = k + i ∧ t.editable = ed.Clone := by
  induction issues generalizing k with
  | nil => simp [tasksFrom] at h
  | cons x xs ih =>
    simp only [tasksFrom, List.mem_cons] at h
    rcases h with rfl | h
    · exact ⟨0, by simp⟩
    · obtain ⟨i, h1, h2, h3⟩ := ih (k + 1) h
      exact ⟨i + 1, by simpa using h1, by omega, h3⟩

theorem tasksFrom_map_issue {β : Type} (ed : Editable) (f : Issue → Editable → β)
    (issues : List Issue) (k : Nat) :
    (tasksFrom ed k issues).map (fun t => f t.issue t.editable)
      = issues.map (fun issue => f issue ed.Clone) := by
  induction issues generalizing k with
  | nil => simp [tasksFrom]
  | cons x xs ih => simp [tasksFrom, ih]



/-! ## The task group: what every schedule preserves -/

theorem record_running (g : Group) (e : Err) : (g.record e).running = g.running := by
  unfold Group.record; split <;> rfl

theorem record_limit (g : Group) (e : Err) : (g.record e).limit = g.limit := by
  unfold Group.record; split <;> rfl

/-- The six moves of a goroutine. -/
theorem move_cases (api : Remote) (opts : EditOptions) (b b' : Batch) (idx : Nat)
    (h : b.move api opts idx = some b') :
    ∃ t, b.g.running.find? (fun t => t.idx == idx) = some t ∧
      ((t.stage = .start ∧ ∃ calls err, t.run api opts = (calls, .error err) ∧
          b' = { b with g := (b.g.leave idx).record err, trace := b.trace ++ calls }) ∨
       (t.stage = .start ∧ ∃ calls v, t.run api opts = (calls, .ok v) ∧
          b' = { b with err := v, g := b.g.setStage idx .called, trace := b.trace ++ calls }) ∨
       (t.stage = .called ∧ b.err = none ∧
          b' = { b with g := b.g.leave idx, issueURLs := b.issueURLs ++ [t.issue.URL] }) ∨
       (t.stage = .called ∧ (∃ e, b.err = some e) ∧
          b' = { b with g := b.g.setStage idx .failing }) ∨
       (t.stage = .failing ∧ b.err = none ∧ b' = { b with g := b.g.leave idx }) ∨
       (t.stage = .failing ∧ ∃ e, b.err = some e ∧
          b' = { b with g := (b.g.leave idx).record e })) := by
  unfold Batch.move at h
  split at h
  · exact absurd h (by simp)
  · rename_i t ht
    refine ⟨t, ht, ?_⟩
    split at h
    · rename_i hst
      split at h
      · rename_i calls err hr
        exact Or.inl ⟨hst, calls, err, hr, (Option.some.inj h).symm⟩
      · rename_i calls v hr
        exact Or.inr (Or.inl ⟨hst, calls, v, hr, (Option.some.inj h).symm⟩)
    · rename_i hst
      split at h
      · rename_i he
        exact Or.inr (Or.inr (Or.inl ⟨hst, he, (Option.some.inj h).symm⟩))
      · rename_i e he
        exact Or.inr (Or.inr (Or.inr (Or.inl ⟨hst, ⟨e, he⟩, (Option.some.inj h).symm⟩)))
    · rename_i hst
      split at h
      · rename_i he
        exact Or.inr (Or.inr (Or.inr (Or.inr (Or.inl ⟨hst, he, (Option.some.inj h).symm⟩))))
      · rename_i e he
        exact Or.inr (Or.inr (Or.inr (Or.inr (Or.inr ⟨hst, e, he, (Option.some.inj h).symm⟩))))

/-- What the moves of the goroutines preserve, `ret` preserves. -/
theorem ret_preserves (P : Batch → Prop) (api : Remote) (opts : EditOptions)
    (hmove : ∀ b b' idx, P b → b.move api opts idx = some b' → P b')
    (b b' : Batch) (idx : Nat) (hb : P b) (h : b.ret api opts idx = some b') : P b' := by
  unfold Batch.ret at h
  split at h
  · exact absurd h (by simp)
  · rename_i b₁ h₁
    have p₁ := hmove b b₁ idx hb h₁
    split at h
    · split at h
      · exact absurd h (by simp)
      · rename_i b₂ h₂
        have p₂ := hmove b₁ b₂ idx p₁ h₂
        split at h
        · exact hmove b₂ b' idx p₂ h
        · rw [← Option.some.inj h]; exact p₂
    · rw [← Option.some.inj h]; exact p₁

/-- What the loop and the moves of the goroutines preserve, every schedule preserves. -/
theorem run_preserves (P : Batch → Prop) (api : Remote) (opts : EditOptions)
    (issues : List Issue) (ed : Editable)
    (hgo : ∀ b b', P b → b.step api opts issues ed .go = some b' → P b')
    (hmove : ∀ b b' idx, P b → b.move api opts idx = some b' → P b')
    (sched : List Step) : ∀ b b', P b → Batch.run api opts issues ed b sched = some b' → P b' := by
  induction sched with
  | nil =>
    intro b b' hb h
    simp only [Batch.run, Option.some.injEq] at h
    rw [← h]; exact hb
  | cons s sched ih =>
    intro b b' hb h
    simp only [Batch.run] at h
    split at h
    · exact absurd h (by simp)
    · rename_i b₁ hs
      apply ih b₁ b' _ h
      cases s with
      | go => exact hgo b b₁ hb hs
      | ret idx => exact ret_preserves P api opts hmove b b₁ idx hb hs
      | move idx => exact hmove b b₁ idx hb hs

/-- The loop iteration: the goroutine for the next issue is started. -/
theorem go_cases (api : Remote) (opts : EditOptions) (issues : List Issue) (ed : Editable)
    (b b' : Batch) (h : b.step api opts issues ed .go = some b') :
    ∃ issue, issues[b.i]? = some issue ∧ b.g.free = true ∧
      b' = { b with
        i := b.i + 1,
        g := { b.g with
          running := b.g.running ++ [{ idx := b.i, issue := issue, editable := ed.Clone }] } } := by
  simp only [Batch.step] at h
  split at h
  · exact absurd h (by simp)
  · rename_i issue hi
    split at h
    · rename_i hfree
      exact ⟨issue, hi, hfree, (Option.some.inj h).symm⟩
    · exact absurd h (by simp)



theorem setStage_idx (g : Group) (idx : Nat) (s : Stage) :
    (g.setStage idx s).running.map (·.idx) = g.running.map (·.idx) := by
  simp only [Group.setStage, List.map_map]
  apply List.map_congr_left
  intro t _
  simp only [Function.comp]
  split <;> rfl

theorem mem_setStage (g : Group) (idx : Nat) (s : Stage) (t' : Task)
    (h : t' ∈ (g.setStage idx s).running) :
    ∃ t ∈ g.running, t'.idx = t.idx ∧ t'.issue = t.issue ∧ t'.editable = t.editable := by
  simp only [Group.setStage, List.mem_map] at h
  obtain ⟨t, ht, rfl⟩ := h
  refine ⟨t, ht, ?_⟩
  split <;> exact ⟨rfl, rfl, rfl⟩

theorem wf_leave (issues : List Issue) (ed : Editable) (b : Batch) (idx : Nat) (g' : Group)
    (hg : g'.running = (b.g.leave idx).running) (b' : Batch) (hb : b'.g = g') (hi : b'.i = b.i)
    (h : b.wf issues ed) : b'.wf issues ed := by
  unfold Batch.wf at h ⊢
  rw [hb, hg, hi]
  simp only [Group.leave]
  refine ⟨(List.filter_sublist _).map _ |>.nodup h.1, ?_⟩
  intro t ht
  exact h.2 t (List.mem_of_mem_filter ht)

theorem wf_setStage (issues : List Issue) (ed : Editable) (b : Batch) (idx : Nat) (s : Stage)
    (b' : Batch) (hb : b'.g = b.g.setStage idx s) (hi : b'.i = b.i)
    (h : b.wf issues ed) : b'.wf issues ed := by
  unfold Batch.wf at h ⊢
  rw [hb, hi, setStage_idx]
  refine ⟨h.1, ?_⟩
  intro t' ht'
  obtain ⟨t, ht, h1, h2, h3⟩ := mem_setStage _ _ _ _ ht'
  rw [h1, h2, h3]
  exact h.2 t ht

/-- The moves of the goroutines keep the batch well formed. -/
theorem wf_move (api : Remote) (opts : EditOptions) (issues : List Issue) (ed : Editable)
    (b b' : Batch) (idx : Nat) (h : b.wf issues ed) (hm : b.move api opts idx = some b') :
    b'.wf issues ed := by
  obtain ⟨t, _, hc⟩ := move_cases api opts b b' idx hm
  rcases hc with ⟨_, _, err, _, rfl⟩ | ⟨_, _, _, _, rfl⟩ | ⟨_, _, rfl⟩ | ⟨_, _, rfl⟩ |
    ⟨_, _, rfl⟩ | ⟨_, e, _, rfl⟩
  · exact wf_leave issues ed b idx _ (record_running _ _) _ rfl rfl h
  · exact wf_setStage issues ed b idx .called _ rfl rfl h
  · exact wf_leave issues ed b idx _ rfl _ rfl rfl h
  · exact wf_setStage issues ed b idx .failing _ rfl rfl h
  · exact wf_leave issues ed b idx _ rfl _ rfl rfl h
  · exact wf_leave issues ed b idx _ (record_running _ _) _ rfl rfl h

/-- The loop keeps the batch well formed. -/
theorem wf_go (api : Remote) (opts : EditOptions) (issues : List Issue) (ed : Editable)
    (b b' : Batch) (h : b.wf issues ed) (hs : b.step api opts issues ed .go = some b') :
    b'.wf issues ed := by
  obtain ⟨issue, hi, _, rfl⟩ := go_cases api opts issues ed b b' hs
  unfold Batch.wf at h ⊢
  simp only [List.map_append, List.map_cons, List.map_nil, List.mem_append, List.mem_singleton]
  refine ⟨?_, ?_⟩
  · rw [List.nodup_append]
    refine ⟨h.1, by simp, ?_⟩
    intro a ha hb
    simp only [List.mem_singleton] at hb
    obtain ⟨t, ht, rfl⟩ := List.mem_map.mp ha
    have := (h.2 t ht).1
    omega
  · rintro t (ht | rfl)
    · obtain ⟨h1, h2, h3⟩ := h.2 t ht
      exact ⟨by omega, h2, h3⟩
    · exact ⟨by simp, hi, rfl⟩

theorem wf_run (api : Remote) (opts : EditOptions) (issues : List Issue) (ed : Editable)
    (sched : List Step) (b b' : Batch) (h : b.wf issues ed)
    (hr : Batch.run api opts issues ed b sched = some b') : b'.wf issues ed :=
  run_preserves (fun b => b.wf issues ed) api opts issues ed
    (fun b b' hb hs => wf_go api opts issues ed b b' hb hs)
    (fun b b' idx hb hm => wf_move api opts issues ed b b' idx hb hm) sched b b' h hr



theorem atStart_setStage (l : List Task) (k : Nat) (s : Stage) (hs : s ≠ .start) :
    (l.map (fun t => if t.idx == k then { t with stage := s } else t)).filter Task.atStart
      = (l.filter (fun t => t.idx != k)).filter Task.atStart := by
  induction l with
  | nil => rfl
  | cons x xs ih =>
    by_cases hx : x.idx = k
    · have e1 : (x.idx == k) = true := by simpa using hx
      have e2 : (x.idx != k) = false := by simpa using hx
      have e3 : Task.atStart { x with stage := s } = false := by
        cases s <;> simp [Task.atStart] at hs ⊢
      simp only [List.map_cons, e1, if_true, List.filter_cons, e2, e3, Bool.false_eq_true,
        if_false]
      exact ih
    · have e1 : (x.idx == k) = false := by simpa using hx
      have e2 : (x.idx != k) = true := by simpa using hx
      simp only [List.map_cons, e1, Bool.false_eq_true, if_false, List.filter_cons, e2, if_true]
      rw [ih]

theorem atStart_perm (l : List Task) (k : Nat) (t : Task)
    (hnd : (l.map (·.idx)).Nodup) (hf : l.find? (fun t => t.idx == k) = some t) :
    (l.filter Task.atStart).Perm
      ((if t.atStart then [t] else []) ++ (l.filter (fun t => t.idx != k)).filter Task.atStart) := by
  have h := (find_filter_perm l k t hnd hf).filter Task.atStart
  rw [List.filter_cons] at h
  split at h
  · rename_i ht
    rw [if_pos ht]; exact h
  · rename_i ht
    rw [if_neg ht]; exact h

/-- The loop leaves the trace of the batch as it is: the goroutine it starts has not made
its calls. -/
theorem traced_go (api : Remote) (opts : EditOptions) (issues : List Issue) (ed : Editable)
    (t₀ : List Event) (b b' : Batch) (h : b.traced api opts issues ed t₀)
    (hs : b.step api opts issues ed .go = some b') : b'.traced api opts issues ed t₀ := by
  obtain ⟨issue, hi, _, rfl⟩ := go_cases api opts issues ed b b' hs
  obtain ⟨order, hp, ht⟩ := h
  refine ⟨order, ?_, ht⟩
  have e : Batch.uncalled issues ed
      { b with i := b.i + 1, g := { b.g with running := b.g.running ++
          [{ idx := b.i, issue := issue, editable := ed.Clone }] } }
      = b.uncalled issues ed := by
    simp only [Batch.uncalled, tasksFrom_drop ed issues b.i issue hi, List.filter_append]
    simp [Task.atStart]
  rw [e]; exact hp

/-- A move of a goroutine keeps the trace of the batch in step: the goroutine that makes its
calls moves from those to come to those that have made theirs. -/
theorem traced_move (api : Remote) (opts : EditOptions) (issues : List Issue) (ed : Editable)
    (t₀ : List Event) (b b' : Batch) (idx : Nat) (hw : b.wf issues ed)
    (h : b.traced api opts issues ed t₀) (hm : b.move api opts idx = some b') :
    b'.traced api opts issues ed t₀ := by
  obtain ⟨t, hf, hc⟩ := move_cases api opts b b' idx hm
  obtain ⟨order, hp, ht⟩ := h
  have hperm := atStart_perm b.g.running idx t hw.1 hf
  have hpu : ∀ (r' : List Task) (i' : Nat), i' = b.i →
      r'.filter Task.atStart
        = (b.g.running.filter (fun t => t.idx != idx)).filter Task.atStart →
      ((if t.atStart then [t] else []) ++
        (r'.filter Task.atStart ++ tasksFrom ed i' (issues.drop i'))).Perm
        (b.uncalled issues ed) := by
    intro r' i' hi' hr'
    subst hi'
    rw [hr', ← List.append_assoc]
    exact (hperm.symm).append_right _
  have hstart : t.stage = .start → t.atStart = true := by
    intro h; simp [Task.atStart, h]
  have hnot : t.stage ≠ .start → t.atStart = false := by
    intro h; cases hst : t.stage <;> simp_all [Task.atStart]
  rcases hc with ⟨hst, calls, err, hr, rfl⟩ | ⟨hst, calls, v, hr, rfl⟩ | ⟨hst, _, rfl⟩ |
    ⟨hst, _, rfl⟩ | ⟨hst, _, rfl⟩ | ⟨hst, e, _, rfl⟩
  · refine ⟨order ++ [t], ?_, ?_⟩
    · have := hpu ((b.g.leave idx).record err).running b.i rfl (by rw [record_running]; rfl)
      rw [if_pos (hstart hst)] at this
      rw [List.append_assoc]
      exact (List.Perm.append_left order this).trans hp
    · simp only [ht, List.flatMap_append, List.flatMap_cons, List.flatMap_nil, hr,
        List.append_nil, List.append_assoc]
  · refine ⟨order ++ [t], ?_, ?_⟩
    · have := hpu (b.g.setStage idx .called).running b.i rfl
        (atStart_setStage _ _ _ (by simp))
      rw [if_pos (hstart hst)] at this
      rw [List.append_assoc]
      exact (List.Perm.append_left order this).trans hp
    · simp only [ht, List.flatMap_append, List.flatMap_cons, List.flatMap_nil, hr,
        List.append_nil, List.append_assoc]
  · refine ⟨order, ?_, ht⟩
    have := hpu (b.g.leave idx).running b.i rfl rfl
    rw [if_neg (by rw [hnot (by rw [hst]; simp)]; simp)] at this
    exact (List.Perm.append_left order this).trans hp
  · refine ⟨order, ?_, ht⟩
    have := hpu (b.g.setStage idx .failing).running b.i rfl
      (atStart_setStage _ _ _ (by simp))
    rw [if_neg (by rw [hnot (by rw [hst]; simp)]; simp)] at this
    exact (List.Perm.append_left order this).trans hp
  · refine ⟨order, ?_, ht⟩
    have := hpu (b.g.leave idx).running b.i rfl rfl
    rw [if_neg (by rw [hnot (by rw [hst]; simp)]; simp)] at this
    exact (List.Perm.append_left order this).trans hp
  · refine ⟨order, ?_, ht⟩
    have := hpu ((b.g.leave idx).record e).running b.i rfl (by rw [record_running]; rfl)
    rw [if_neg (by rw [hnot (by rw [hst]; simp)]; simp)] at this
    exact (List.Perm.append_left order this).trans hp

/-- Every schedule keeps the batch well formed and its trace in step. -/
theorem traced_run (api : Remote) (opts : EditOptions) (issues : List Issue) (ed : Editable)
    (t₀ : List Event) (sched : List Step) (b b' : Batch) (hw : b.wf issues ed)
    (h : b.traced api opts issues ed t₀)
    (hr : Batch.run api opts issues ed b sched = some b') :
    b'.wf issues ed ∧ b'.traced api opts issues ed t₀ :=
  run_preserves (fun b => b.wf issues ed ∧ b.traced api opts issues ed t₀) api opts issues ed
    (fun b b' hb hs => ⟨wf_go api opts issues ed b b' hb.1 hs,
      traced_go api opts issues ed t₀ b b' hb.2 hs⟩)
    (fun b b' idx hb hm => ⟨wf_move api opts issues ed b b' idx hb.1 hm,
      traced_move api opts issues ed t₀ b b' idx hb.1 hb.2 hm⟩) sched b b' ⟨hw, h⟩ hr



/-- The calls `editRun` has made when its parallel part starts. -/
theorem editRun_of_fetched (api : Remote) (opts : EditOptions) (issues : List Issue)
    (ed : Editable) (hf : fetched api opts = some (issues, ed)) :
    ∃ ed₀ : Editable,
      opts.FetchOptions ed₀ = .ok ed ∧
      api.IssuesFromArgsWithFields opts.SelectorArgs (lookupFields ed₀) = .ok issues ∧
      ∀ sched, editRun api opts sched =
        match Batch.run api opts issues ed
          { g := Group.SetLimit {} (if opts.workers = 0 then 10 else opts.workers),
            trace := prologue opts ed₀ } sched with
        | none => none
        | some b =>
          if b.i = issues.length ∧ b.g.running = [] then
            match b.g.err with
            | some err => some { err := some err, trace := b.trace }
            | none => some { err := none, out := b.issueURLs, trace := b.trace }
          else none := by
  unfold fetched at hf
  split at hf
  · exact absurd hf (by simp)
  · rename_i hc
    split at hf
    · exact absurd hf (by simp)
    · rename_i ed₀ hs
      split at hf
      · exact absurd hf (by simp)
      · rename_i issues' hi
        split at hf
        · exact absurd hf (by simp)
        · rename_i ed' hfo
          simp only [Option.some.injEq, Prod.mk.injEq] at hf
          obtain ⟨rfl, rfl⟩ := hf
          refine ⟨ed₀, hfo, hi, ?_⟩
          intro sched
          unfold editRun prologue
          simp only [hc]
          by_cases hI : opts.Interactive = true
          · simp only [hI, if_true] at hs ⊢
            simp only [hs, hi, hfo, List.singleton_append, List.cons_append, List.nil_append,
              List.append_assoc]
          · simp only [hI] at hs ⊢
            simp only [Bool.false_eq_true, if_false, Except.ok.injEq] at hs
            subst hs
            simp only [Bool.false_eq_true, if_false, hi, hfo, List.nil_append,
              List.singleton_append, List.cons_append]

theorem SetLimit_running (g : Group) (n : Int) : (g.SetLimit n).running = g.running := by
  unfold Group.SetLimit; split <;> rfl

theorem SetLimit_limit_ne_zero (g : Group) (w : Int) (hw : w ≠ 0) :
    (g.SetLimit w).limit ≠ some 0 := by
  unfold Group.SetLimit
  split
  · simp
  · intro h0
    have h1 : w.toNat = 0 := by simpa using h0
    have h2 := Int.toNat_eq_zero.mp h1
    omega

theorem SetLimit_err (g : Group) (n : Int) : (g.SetLimit n).err = g.err := by
  unfold Group.SetLimit; split <;> rfl

/-- A run of `editRun` that reaches the parallel part: the schedule takes the batch that
the loop starts with to a batch in which the loop is over and every goroutine has returned,
and `editRun` returns the error of the group, or the content of the channel when there is
none. -/
theorem editRun_batch (api : Remote) (opts : EditOptions) (issues : List Issue)
    (ed : Editable) (hf : fetched api opts = some (issues, ed))
    (sched : List Step) (r : Outcome) (hr : editRun api opts sched = some r) :
    ∃ (ed₀ : Editable) (b : Batch),
      opts.FetchOptions ed₀ = .ok ed ∧
      api.IssuesFromArgsWithFields opts.SelectorArgs (lookupFields ed₀) = .ok issues ∧
      Batch.run api opts issues ed
        { g := Group.SetLimit {} (if opts.workers = 0 then 10 else opts.workers),
          trace := prologue opts ed₀ } sched = some b ∧
      b.i = issues.length ∧ b.g.running = [] ∧
      r.trace = b.trace ∧ r.err = b.g.err ∧
      r.out = (if b.g.err = none then b.issueURLs else []) := by
  obtain ⟨ed₀, hfo, hi, h⟩ := editRun_of_fetched api opts issues ed hf
  rw [h sched] at hr
  split at hr
  · exact absurd hr (by simp)
  · rename_i b hb
    split at hr
    · rename_i hfin
      refine ⟨ed₀, b, hfo, hi, hb, hfin.1, hfin.2, ?_⟩
      split at hr
      · rename_i err herr
        simp only [Option.some.injEq] at hr
        subst hr
        simp [herr]
      · rename_i herr
        simp only [Option.some.injEq] at hr
        subst hr
        simp [herr]
    · exact absurd hr (by simp)

theorem updateCalls_append (t₁ t₂ : List Event) :
    updateCalls (t₁ ++ t₂) = updateCalls t₁ ++ updateCalls t₂ := by
  induction t₁ with
  | nil => rfl
  | cons e t ih => cases e <;> simp [updateCalls, ih]

theorem updateCalls_prologue (opts : EditOptions) (ed₀ : Editable) :
    updateCalls (prologue opts ed₀) = [] := by
  unfold prologue
  cases opts.Interactive <;> simp [updateCalls]

theorem wf_init (issues : List Issue) (ed : Editable) (b : Batch) (hr : b.g.running = []) :
    b.wf issues ed := by
  unfold Batch.wf
  rw [hr]
  exact ⟨List.nodup_nil, fun t ht => absurd ht (List.not_mem_nil t)⟩

/-- Every run of `editRun` that reaches the parallel part: the goroutines make their calls
in some order `order`, a rearrangement of the goroutines started, and the trace is that of
this order. -/
theorem editRun_sound (api : Remote) (opts : EditOptions) (issues : List Issue)
    (ed : Editable) (hf : fetched api opts = some (issues, ed))
    (sched : List Step) (r : Outcome) (hr : editRun api opts sched = some r) :
    ∃ (order : List Task) (ed₀ : Editable),
      order.Perm (tasksFrom ed 0 issues) ∧
      opts.FetchOptions ed₀ = .ok ed ∧
      api.IssuesFromArgsWithFields opts.SelectorArgs (lookupFields ed₀) = .ok issues ∧
      r.trace = prologue opts ed₀ ++ order.flatMap (fun t => (t.run api opts).1) := by
  obtain ⟨ed₀, b, hfo, hi, hb, hbi, hbr, ht, _, _⟩ := editRun_batch api opts issues ed hf sched r hr
  have h0 : Batch.traced api opts issues ed (prologue opts ed₀)
      { g := Group.SetLimit {} (if opts.workers = 0 then 10 else opts.workers),
        trace := prologue opts ed₀ } :=
    ⟨[], by simp [Batch.uncalled, SetLimit_running], by simp⟩
  obtain ⟨_, order, hp, htr⟩ := traced_run api opts issues ed (prologue opts ed₀) sched _ b
    (wf_init issues ed _ (SetLimit_running _ _)) h0 hb
  refine ⟨order, ed₀, ?_, hfo, hi, by rw [ht, htr]⟩
  have e : b.uncalled issues ed = [] := by
    simp [Batch.uncalled, hbi, hbr, tasksFrom]
  rwa [e, List.append_nil] at hp



theorem setLimit_not_mem_task (api : Remote) (opts : EditOptions) (i : Nat) (issue : Issue)
    (e : Editable) (n : Int) : Event.setLimit n ∉ (task api opts i issue e).1 := by
  unfold task
  dsimp only
  cases opts.Interactive
  · simp
  · cases hd : opts.DetermineEditor i with
    | error err => simp
    | ok cmd =>
      cases hs : opts.EditFieldsSurvey i (setDefaults e issue) cmd with
      | error err => simp [hs]
      | ok edited => simp [hs]

theorem setLimit_mem_prologue (opts : EditOptions) (ed₀ : Editable) (n : Int) :
    Event.setLimit n ∈ prologue opts ed₀ ↔ n = if opts.workers = 0 then 10 else opts.workers := by
  unfold prologue
  cases opts.Interactive <;> simp

theorem leave_length_le (g : Group) (idx : Nat) :
    (g.leave idx).running.length ≤ g.running.length :=
  List.length_filter_le _ _

theorem setStage_length (g : Group) (idx : Nat) (s : Stage) :
    (g.setStage idx s).running.length = g.running.length := by
  simp [Group.setStage]

theorem move_running_le (api : Remote) (opts : EditOptions) (b b' : Batch) (idx : Nat)
    (h : b.move api opts idx = some b') :
    b'.g.limit = b.g.limit ∧ b'.g.running.length ≤ b.g.running.length := by
  obtain ⟨t, _, hc⟩ := move_cases api opts b b' idx h
  rcases hc with ⟨_, _, err, _, rfl⟩ | ⟨_, _, _, _, rfl⟩ | ⟨_, _, rfl⟩ | ⟨_, _, rfl⟩ |
    ⟨_, _, rfl⟩ | ⟨_, e, _, rfl⟩
  · exact ⟨record_limit _ _, by rw [record_running]; exact leave_length_le _ _⟩
  · exact ⟨rfl, Nat.le_of_eq (setStage_length _ _ _)⟩
  · exact ⟨rfl, leave_length_le _ _⟩
  · exact ⟨rfl, Nat.le_of_eq (setStage_length _ _ _)⟩
  · exact ⟨rfl, leave_length_le _ _⟩
  · exact ⟨record_limit _ _, by rw [record_running]; exact leave_length_le _ _⟩

/-- With a limit `k` installed, no schedule gets more than `k` goroutines running. -/
theorem run_running_le (api : Remote) (opts : EditOptions) (issues : List Issue)
    (ed : Editable) (k : Nat) (sched : List Step) (b b' : Batch)
    (hl : b.g.limit = some k) (hle : b.g.running.length ≤ k)
    (h : Batch.run api opts issues ed b sched = some b') : b'.g.running.length ≤ k := by
  have := run_preserves (fun b => b.g.limit = some k ∧ b.g.running.length ≤ k) api opts issues ed
    (fun b b' hb hs => by
      obtain ⟨issue, _, hfree, rfl⟩ := go_cases api opts issues ed b b' hs
      have hlt : b.g.running.length < k := by
        simpa [Group.free, hb.1] using hfree
      exact ⟨hb.1, by simp; omega⟩)
    (fun b b' idx hb hm => by
      obtain ⟨h1, h2⟩ := move_running_le api opts b b' idx hm
      exact ⟨h1.trans hb.1, Nat.le_trans h2 hb.2⟩) sched b b' ⟨hl, hle⟩ h
  exact this.2



/-- Without the interactive prompts a goroutine makes one call, the update of its issue, and
assigns its result to `err`. -/
theorem task_noninteractive (api : Remote) (opts : EditOptions) (hni : opts.Interactive = false)
    (i : Nat) (issue : Issue) (e : Editable) :
    task api opts i issue e
      = ([.updateIssue issue.ID issue.IsPullRequest (setDefaults e issue)],
         .ok (api.UpdateIssue i issue.ID issue.IsPullRequest (setDefaults e issue))) := by
  unfold task
  simp only [hni, Bool.false_eq_true, if_false]

theorem updateCalls_flatMap_noninteractive (api : Remote) (opts : EditOptions)
    (hni : opts.Interactive = false) (order : List Task) :
    updateCalls (order.flatMap (fun t => (t.run api opts).1))
      = order.map (fun t => (t.issue.ID, t.issue.IsPullRequest, setDefaults t.editable t.issue)) := by
  induction order with
  | nil => rfl
  | cons t ts ih =>
    rw [List.flatMap_cons, updateCalls_append, ih]
    simp [Task.run, task_noninteractive api opts hni t.idx t.issue t.editable, updateCalls]

theorem setStage_urls (g : Group) (idx : Nat) (s : Stage) :
    (g.setStage idx s).running.map (·.issue.URL) = g.running.map (·.issue.URL) := by
  simp only [Group.setStage, List.map_map]
  apply List.map_congr_left
  intro t _
  simp only [Function.comp]
  split <;> rfl

theorem stage_setStage (g : Group) (idx : Nat) (s : Stage) (t' : Task)
    (h : t' ∈ (g.setStage idx s).running) : t'.stage = s ∨ t' ∈ g.running := by
  simp only [Group.setStage, List.mem_map] at h
  obtain ⟨t, ht, rfl⟩ := h
  split
  · exact Or.inl rfl
  · exact Or.inr ht

theorem noFailure_go (api : Remote) (opts : EditOptions) (issues : List Issue) (ed : Editable)
    (b b' : Batch) (h : b.noFailure issues ed) (hs : b.step api opts issues ed .go = some b') :
    b'.noFailure issues ed := by
  obtain ⟨hw, he, hge, hst, hp⟩ := h
  have hw' := wf_go api opts issues ed b b' hw hs
  obtain ⟨issue, hi, _, rfl⟩ := go_cases api opts issues ed b b' hs
  refine ⟨hw', he, hge, ?_, ?_⟩
  · intro t ht
    simp only [List.mem_append, List.mem_singleton] at ht
    rcases ht with ht | rfl
    · exact hst t ht
    · simp
  · obtain ⟨hlt, rfl⟩ := List.getElem?_eq_some_iff.mp hi
    have e : (issues.drop b.i).map (·.URL)
        = issues[b.i].URL :: (issues.drop (b.i + 1)).map (·.URL) := by
      rw [List.drop_eq_getElem_cons hlt]; rfl
    rw [e] at hp
    simp only [List.map_append, List.map_cons, List.map_nil, List.append_assoc,
      List.singleton_append]
    exact hp

theorem noFailure_move (api : Remote) (opts : EditOptions) (issues : List Issue) (ed : Editable)
    (hni : opts.Interactive = false)
    (hok : ∀ i issue, issues[i]? = some issue →
      api.UpdateIssue i issue.ID issue.IsPullRequest (setDefaults ed.Clone issue) = none)
    (b b' : Batch) (idx : Nat) (h : b.noFailure issues ed) (hm : b.move api opts idx = some b') :
    b'.noFailure issues ed := by
  obtain ⟨hw, he, hge, hst, hp⟩ := h
  have hw' := wf_move api opts issues ed b b' idx hw hm
  obtain ⟨t, hf, hc⟩ := move_cases api opts b b' idx hm
  have htm : t ∈ b.g.running := List.mem_of_find?_eq_some hf
  have hrun : t.run api opts = ([.updateIssue t.issue.ID t.issue.IsPullRequest
      (setDefaults t.editable t.issue)], .ok none) := by
    obtain ⟨_, h2, h3⟩ := hw.2 t htm
    rw [Task.run, task_noninteractive api opts hni, h3, hok t.idx t.issue h2]
  rcases hc with ⟨_, calls, err, hr, rfl⟩ | ⟨_, calls, v, hr, rfl⟩ | ⟨_, _, rfl⟩ |
    ⟨_, ⟨e, hbe⟩, rfl⟩ | ⟨hfl, _, rfl⟩ | ⟨hfl, e, _, rfl⟩
  · rw [hrun] at hr
    exact absurd hr (by simp)
  · rw [hrun] at hr
    simp only [Prod.mk.injEq, Except.ok.injEq] at hr
    refine ⟨hw', hr.2.symm, hge, ?_, ?_⟩
    · intro t' ht'
      rcases stage_setStage _ _ _ _ ht' with h | h
      · rw [h]; simp
      · exact hst t' h
    · show (b.issueURLs ++ ((b.g.setStage idx .called).running.map (·.issue.URL) ++ _)).Perm _
      rw [setStage_urls]; exact hp
  · refine ⟨hw', he, hge, ?_, ?_⟩
    · intro t' ht'
      exact hst t' (List.mem_of_mem_filter ht')
    · show ((b.issueURLs ++ [t.issue.URL]) ++
        ((b.g.running.filter (fun t => t.idx != idx)).map (·.issue.URL) ++ _)).Perm _
      have hq := (find_filter_perm b.g.running idx t hw.1 hf).map (·.issue.URL)
      rw [List.map_cons] at hq
      refine List.Perm.trans ?_ hp
      rw [List.append_assoc]
      apply List.Perm.append_left
      rw [List.singleton_append, ← List.cons_append]
      exact hq.symm.append_right _
  · rw [he] at hbe
    exact absurd hbe (by simp)
  · exact absurd hfl (hst t htm)
  · exact absurd hfl (hst t htm)

/-- C2, the core: when no update fails, every schedule that takes the loop to its end has
sent each url once and recorded no error. -/
theorem noFailure_run (api : Remote) (opts : EditOptions) (issues : List Issue) (ed : Editable)
    (hni : opts.Interactive = false)
    (hok : ∀ i issue, issues[i]? = some issue →
      api.UpdateIssue i issue.ID issue.IsPullRequest (setDefaults ed.Clone issue) = none)
    (sched : List Step) (b b' : Batch) (h : b.noFailure issues ed)
    (hr : Batch.run api opts issues ed b sched = some b') : b'.noFailure issues ed :=
  run_preserves (fun b => b.noFailure issues ed) api opts issues ed
    (fun b b' hb hs => noFailure_go api opts issues ed b b' hb hs)
    (fun b b' idx hb hm => noFailure_move api opts issues ed hni hok b b' idx hb hm) sched b b' h hr



/-- A goroutine that runs alone from its start to its return: it returns the error of its
prompts or the result of its own update, and sends its url when that is nil. -/
theorem ret_single (api : Remote) (opts : EditOptions) (b : Batch) (k : Nat) (issue : Issue)
    (e : Editable) (hr : b.g.running = [{ idx := k, issue := issue, editable := e }]) :
    ∃ b', b.ret api opts k = some b' ∧ b'.i = b.i ∧ b'.g.running = [] ∧
      b'.g.limit = b.g.limit ∧
      b'.trace = b.trace ++ (task api opts k issue e).1 ∧
      b'.g.err = (b.g.err.toList ++ (returned (task api opts k issue e).2).toList).head? ∧
      b'.issueURLs = b.issueURLs ++
        (match returned (task api opts k issue e).2 with
          | none => [issue.URL]
          | some _ => []) := by
  rcases h : task api opts k issue e with ⟨calls, (err | (_ | err))⟩
  · have hb : b.ret api opts k = some { b with
        g := Group.record { b.g with running := [] } err, trace := b.trace ++ calls } := by
      simp [Batch.ret, Batch.move, hr, h, Batch.runs, Group.leave, record_running]
    refine ⟨_, hb, rfl, record_running _ _, record_limit _ _, rfl, ?_, ?_⟩
    · simp only [Group.record, returned]
      cases b.g.err <;> rfl
    · simp [returned]
  · have hb : b.ret api opts k = some { b with
        err := none, g := { b.g with running := [] },
        issueURLs := b.issueURLs ++ [issue.URL], trace := b.trace ++ calls } := by
      simp [Batch.ret, Batch.move, hr, h, Batch.runs, Group.leave, Group.setStage]
    refine ⟨_, hb, rfl, rfl, rfl, rfl, ?_, ?_⟩
    · simp only [returned]
      cases b.g.err <;> rfl
    · simp [returned]
  · have hb : b.ret api opts k = some { b with
        err := some err, g := Group.record { b.g with running := [] } err,
        trace := b.trace ++ calls } := by
      simp [Batch.ret, Batch.move, hr, h, Batch.runs, Group.leave, Group.setStage,
        record_running]
    refine ⟨_, hb, rfl, record_running _ _, record_limit _ _, rfl, ?_, ?_⟩
    · simp only [Group.record, returned]
      cases b.g.err <;> rfl
    · simp [returned]



theorem head_toList_append {α : Type} (l₁ l₂ : List α) :
    (l₁.head?.toList ++ l₂).head? = (l₁ ++ l₂).head? := by
  cases l₁ <;> simp

/-- The schedule that runs the goroutines one after the other takes the loop to its end, and
the error of the group is then the first, in the order of the issues, of the errors that the
goroutines return. -/
theorem seqSched_run (api : Remote) (opts : EditOptions) (issues : List Issue) (ed : Editable)
    (m : Nat) : ∀ (k : Nat) (b : Batch), k + m = issues.length → b.i = k → b.g.running = [] →
      b.g.limit ≠ some 0 →
      ∃ b', Batch.run api opts issues ed b (seqSched k m) = some b' ∧
        b'.i = issues.length ∧ b'.g.running = [] ∧
        b'.g.err = (b.g.err.toList ++ (tasksFrom ed k (issues.drop k)).filterMap
          (fun t => returned (t.run api opts).2)).head? := by
  induction m with
  | zero =>
    intro k b hk hi hr _
    refine ⟨b, rfl, by omega, hr, ?_⟩
    have : issues.drop k = [] := List.drop_eq_nil_of_le (by omega)
    rw [this]
    cases b.g.err <;> rfl
  | succ m ih =>
    intro k b hk hi hr hl
    have hlt : b.i < issues.length := by omega
    have hfree : b.g.free = true := by
      unfold Group.free
      split
      · rfl
      · rename_i n hn
        rw [hr]
        have : n ≠ 0 := fun h0 => hl (by rw [hn, h0])
        simp; omega
    have hget : issues[b.i]? = some issues[b.i] := List.getElem?_eq_getElem hlt
    subst hi
    simp only [seqSched, Batch.run]
    have hgo : b.step api opts issues ed .go = some { b with
        i := b.i + 1,
        g := { b.g with
          running := [{ idx := b.i, issue := issues[b.i], editable := ed.Clone }] } } := by
      simp [Batch.step, hget, hfree, hr]
    rw [hgo]
    obtain ⟨b₂, hb₂, hi₂, hr₂, hl₂, _, he₂, _⟩ := ret_single api opts
      { b with
        i := b.i + 1,
        g := { b.g with
          running := [{ idx := b.i, issue := issues[b.i], editable := ed.Clone }] } }
      b.i issues[b.i] ed.Clone rfl
    simp only [Batch.step, hb₂]
    obtain ⟨b', hb', hi', hr', he'⟩ := ih (b.i + 1) b₂ (by omega) hi₂ hr₂ (by rw [hl₂]; exact hl)
    refine ⟨b', hb', hi', hr', ?_⟩
    rw [he', he₂, head_toList_append, tasksFrom_drop ed issues b.i _ hget, List.filterMap_cons]
    simp only [Task.run]
    cases returned (task api opts b.i issues[b.i] ed.Clone).2 <;> simp

/-- From the fetch on, under the schedule that runs the goroutines one after the other,
`editRun` returns the first, in the order of the issues, of the errors that the goroutines
return. -/
theorem editRun_seq (api : Remote) (opts : EditOptions) (issues : List Issue)
    (ed : Editable) (hf : fetched api opts = some (issues, ed)) :
    ∃ r, editRun api opts (seqSched 0 issues.length) = some r ∧
      r.err = ((tasksFrom ed 0 issues).filterMap
        (fun t => returned (t.run api opts).2)).head? ∧
      (r.err ≠ none → r.out = []) := by
  obtain ⟨ed₀, _, _, h⟩ := editRun_of_fetched api opts issues ed hf
  rw [h]
  have hl : (Group.SetLimit {} (if opts.workers = 0 then 10 else opts.workers)).limit ≠ some 0 := by
    apply SetLimit_limit_ne_zero
    split <;> omega
  obtain ⟨b', hb', hi', hr', he'⟩ := seqSched_run api opts issues ed issues.length 0
    { g := Group.SetLimit {} (if opts.workers = 0 then 10 else opts.workers),
      trace := prologue opts ed₀ }
    (by simp) rfl (SetLimit_running _ _) hl
  rw [hb']
  simp only [hi', hr', and_self, if_true]
  rw [SetLimit_err] at he'
  simp only [Option.toList, List.nil_append, List.drop_zero] at he'
  rw [← he']
  split
  · rename_i err herr
    exact ⟨_, rfl, herr.symm, fun _ => rfl⟩
  · rename_i herr
    exact ⟨_, rfl, herr.symm, fun h => absurd rfl h⟩

/-- From the fetch on, `editRun` returns under the schedule that runs the goroutines one
after the other. -/
theorem editRun_live (api : Remote) (opts : EditOptions) (issues : List Issue)
    (ed : Editable) (hf : fetched api opts = some (issues, ed)) :
    ∃ r, editRun api opts (seqSched 0 issues.length) = some r := by
  obtain ⟨r, hr, _⟩ := editRun_seq api opts issues ed hf
  exact ⟨r, hr⟩

/-- C2: in a batch without prompts in which every update succeeds, `editRun` returns (under
the schedule that runs the tasks one by one), and every run returns no error and writes
exactly one url for each issue: the lines written are a rearrangement of the urls of the
issues, as many as there are issues, and none for the empty batch. -/
theorem C2_all_updates_succeed (api : Remote) (opts : EditOptions) (issues : List Issue)
    (ed : Editable) (hf : fetched api opts = some (issues, ed))
    (hni : opts.Interactive = false)
    (hok : ∀ i issue, issues[i]? = some issue →
      api.UpdateIssue i issue.ID issue.IsPullRequest (setDefaults ed.Clone issue) = none) :
    (∃ r, editRun api opts (seqSched 0 issues.length) = some r) ∧
    ∀ sched r, editRun api opts sched = some r →
      r.err = none ∧ r.out.length = issues.length ∧ r.out.Perm (issues.map (·.URL)) ∧
      (issues = [] → r.out = []) := by
  refine ⟨editRun_live api opts issues ed hf, ?_⟩
  intro sched r hr
  obtain ⟨ed₀, b, _, _, hb, hbi, hbr, _, hre, hro⟩ := editRun_batch api opts issues ed hf sched r hr
  have h0 : Batch.noFailure issues ed
      { g := Group.SetLimit {} (if opts.workers = 0 then 10 else opts.workers),
        trace := prologue opts ed₀ } :=
    ⟨wf_init issues ed _ (SetLimit_running _ _), rfl, SetLimit_err _ _,
      by simp [SetLimit_running], by simp [SetLimit_running]⟩
  obtain ⟨_, _, hge, _, hp⟩ := noFailure_run api opts issues ed hni hok sched _ b h0 hb
  have herr : r.err = none := by rw [hre, hge]
  have hout : r.out.Perm (issues.map (·.URL)) := by
    rw [hro, if_pos hge]
    simpa [hbi, hbr] using hp
  refine ⟨herr, ?_, hout, ?_⟩
  · rw [hout.length_eq, List.length_map]
  · intro hnil
    subst hnil
    simpa using hout

/-- C2 witness: the batch of three issues on which every update succeeds. -/
theorem C2_all_updates_succeed_witness :
    fetched allOk addBug = some ([issue1, issue2, issue3], addBug.Editable) ∧
    addBug.Interactive = false ∧
    ((∃ r, editRun allOk addBug (seqSched 0 [issue1, issue2, issue3].length) = some r) ∧
      ∀ sched r, editRun allOk addBug sched = some r →
        r.err = none ∧ r.out.length = [issue1, issue2, issue3].length ∧
        r.out.Perm ([issue1, issue2, issue3].map (·.URL)) ∧
        (([issue1, issue2, issue3] : List Issue) = [] → r.out = [])) :=
  ⟨rfl, rfl, C2_all_updates_succeed allOk addBug [issue1, issue2, issue3] addBug.Editable rfl rfl
    (fun _ _ _ => rfl)⟩



/-- C3, as the code has it: `editRun` calls `SetLimit` once, with 10 when the worker count is 0
and with the worker count itself otherwise. So the limit installed is 10 for a worker
count of 0 (as for 10) and the worker count for a positive one; a negative worker count is
handed on unchanged, and `SetLimit` then installs no limit. Whatever limit `k` is
installed, no state of the parallel part has more than `k` goroutines running. -/
theorem C3_limit_installed (api : Remote) (opts : EditOptions) (issues : List Issue)
    (ed : Editable) (hf : fetched api opts = some (issues, ed)) :
    (∃ r, editRun api opts (seqSched 0 issues.length) = some r) ∧
    (∀ sched r, editRun api opts sched = some r →
      (∀ n, Event.setLimit n ∈ r.trace ↔ n = if opts.workers = 0 then 10 else opts.workers) ∧
      (opts.workers = 0 → Event.setLimit 10 ∈ r.trace ∧
        (Group.SetLimit {} 10).limit = some 10) ∧
      (0 < opts.workers → Event.setLimit opts.workers ∈ r.trace ∧
        (Group.SetLimit {} opts.workers).limit = some opts.workers.toNat) ∧
      (opts.workers < 0 → Event.setLimit opts.workers ∈ r.trace ∧
        (Group.SetLimit {} opts.workers).limit = none)) ∧
    (∀ (w : Int) (k : Nat) (t : List Event) (sched : List Step) (b : Batch),
      (Group.SetLimit {} w).limit = some k →
      Batch.run api opts issues ed { g := Group.SetLimit {} w, trace := t } sched = some b →
      b.g.running.length ≤ k) := by
  refine ⟨editRun_live api opts issues ed hf, ?_, ?_⟩
  swap
  · intro w k t sched b hk hb
    exact run_running_le api opts issues ed k sched _ b hk
      (by rw [SetLimit_running]; exact Nat.zero_le k) hb
  intro sched r hr
  obtain ⟨order, ed₀, _, _, _, ht⟩ := editRun_sound api opts issues ed hf sched r hr
  have key : ∀ n, Event.setLimit n ∈ r.trace ↔
      n = if opts.workers = 0 then 10 else opts.workers := by
    intro n
    rw [ht, List.mem_append, setLimit_mem_prologue]
    constructor
    · rintro (h | h)
      · exact h
      · obtain ⟨t, _, hmem⟩ := List.mem_flatMap.mp h
        exact absurd hmem (setLimit_not_mem_task api opts _ _ _ n)
    · exact Or.inl
  refine ⟨key, ?_, ?_, ?_⟩
  · intro h0
    exact ⟨(key 10).mpr (by simp [h0]), by decide⟩
  · intro hpos
    refine ⟨(key _).mpr (by rw [if_neg (by omega)]), ?_⟩
    unfold Group.SetLimit
    rw [if_neg (by omega)]
  · intro hneg
    refine ⟨(key _).mpr (by rw [if_neg (by omega)]), ?_⟩
    unfold Group.SetLimit
    rw [if_pos hneg]

/-- C3 witness: the options `addBug`, whose worker count is 0. -/
theorem C3_limit_installed_witness :
    fetched allOk addBug = some ([issue1, issue2, issue3], addBug.Editable) ∧
    ∀ sched r, editRun allOk addBug sched = some r → Event.setLimit 10 ∈ r.trace :=
  ⟨rfl, fun sched r hr =>
    ((C3_limit_installed allOk addBug [issue1, issue2, issue3] addBug.Editable rfl).2.1
      sched r hr).2.1 rfl |>.1⟩

/-- C3 as stated fails for a negative worker count: with `workers = -1` the call is
`SetLimit(-1)`, not `SetLimit(10)`, the group has no limit, and on a batch of eleven issues
the loop starts all eleven goroutines before any of them returns. -/
theorem C3_counterexample :
    negativeWorkers.workers ≤ 0 ∧
    (∃ r, editRun elevenIssues negativeWorkers (seqSched 0 11) = some r ∧
      Event.setLimit (-1) ∈ r.trace ∧ Event.setLimit 10 ∉ r.trace) ∧
    (Group.SetLimit {} (-1)).limit = none ∧
    (∃ b, Batch.run elevenIssues negativeWorkers (List.replicate 11 issue1)
        negativeWorkers.Editable { g := Group.SetLimit {} (-1) } (List.replicate 11 .go) = some b ∧
      b.g.running.length = 11) :=
  ⟨by decide, ⟨_, rfl, by decide, by decide⟩, rfl, ⟨_, rfl, rfl⟩⟩


/-- The update calls of a run without prompts, up to their order. -/
theorem updateCalls_perm (api : Remote) (opts : EditOptions) (issues : List Issue)
    (ed : Editable) (hf : fetched api opts = some (issues, ed))
    (hni : opts.Interactive = false) (sched : List Step) (r : Outcome)
    (hr : editRun api opts sched = some r) :
    (updateCalls r.trace).Perm
      (issues.map (fun issue => (issue.ID, issue.IsPullRequest, setDefaults ed.Clone issue))) := by
  obtain ⟨order, ed₀, hp, _, _, ht⟩ := editRun_sound api opts issues ed hf sched r hr
  rw [ht, updateCalls_append, updateCalls_prologue, List.nil_append,
    updateCalls_flatMap_noninteractive api opts hni]
  have := hp.map (fun t => (t.issue.ID, t.issue.IsPullRequest, setDefaults t.editable t.issue))
  rwa [tasksFrom_map_issue ed
    (fun issue e => (issue.ID, issue.IsPullRequest, setDefaults e issue)) issues 0] at this

/-- C4: in a batch without prompts, whichever updates fail, `editRun` returns (under the
schedule that runs the tasks one by one), and in every run the update calls made are,
up to their order, exactly one call for each issue of the batch, with the id and the
pull-request flag of that issue and the edit built for it. -/
theorem C4_every_issue_updated_once (api : Remote) (opts : EditOptions) (issues : List Issue)
    (ed : Editable) (hf : fetched api opts = some (issues, ed))
    (hni : opts.Interactive = false) :
    (∃ r, editRun api opts (seqSched 0 issues.length) = some r) ∧
    ∀ sched r, editRun api opts sched = some r →
      (updateCalls r.trace).Perm
        (issues.map (fun issue => (issue.ID, issue.IsPullRequest, setDefaults ed.Clone issue))) ∧
      (updateCalls r.trace).length = issues.length := by
  refine ⟨editRun_live api opts issues ed hf, ?_⟩
  intro sched r hr
  have hperm := updateCalls_perm api opts issues ed hf hni sched r hr
  exact ⟨hperm, by rw [hperm.length_eq, List.length_map]⟩


/-- C4 witness: the batch of two issues in which the update of the second fails. -/
theorem C4_every_issue_updated_once_witness :
    fetched forbiddenSecond addBug = some ([issue1, issue2], addBug.Editable) ∧
    addBug.Interactive = false ∧
    ((∃ r, editRun forbiddenSecond addBug (seqSched 0 [issue1, issue2].length) = some r) ∧
      ∀ sched r, editRun forbiddenSecond addBug sched = some r →
        (updateCalls r.trace).Perm
          ([issue1, issue2].map (fun issue =>
            (issue.ID, issue.IsPullRequest, setDefaults addBug.Editable.Clone issue))) ∧
        (updateCalls r.trace).length = [issue1, issue2].length) :=
  ⟨rfl, rfl,
    C4_every_issue_updated_once forbiddenSecond addBug [issue1, issue2] addBug.Editable rfl rfl⟩


/-- C5 fails on the code: the goroutines assign the result of their update to the one
variable `err` of `editRun` and then read this variable. In the batch of `issue1` and
`issue2` in which the update of the second fails with "forbidden", the goroutine of the
second assigns its error, the goroutine of the first assigns nil over it, and both then
read nil: `editRun` returns no error and writes both urls, although a task failed. -/
theorem C5_shared_err_divergence :
    fetched forbiddenSecond addBug = some ([issue1, issue2], addBug.Editable) ∧
    forbiddenSecond.UpdateIssue 1 issue2.ID issue2.IsPullRequest
      (setDefaults addBug.Editable.Clone issue2) = some (.other "forbidden") ∧
    ∃ r, editRun forbiddenSecond addBug [.go, .go, .move 1, .move 0, .move 1, .move 0] = some r ∧
      r.err = none ∧ r.out = [issue2.URL, issue1.URL] :=
  ⟨rfl, rfl, _, rfl, rfl, rfl⟩

/-- C6, as the code has it: the edit a task builds from the clone of the canonical spec
`ed` and its issue has the title, the body, the assignee logins, the label names and the
project names (card names, then item titles) of the issue in its default slots, and the
milestone title of the issue when the issue has a milestone; when it has none, the
milestone default slot keeps the value of the canonical spec. So every default slot but the
milestone's is the same for every canonical spec, and the milestone's is when the issue
has a milestone or the two canonical specs have the same milestone default. -/
theorem C6_defaults_overlay (ed ed' : Editable) (issue : Issue) :
    (setDefaults ed.Clone issue).Title.Default = issue.Title ∧
    (setDefaults ed.Clone issue).Body.Default = issue.Body ∧
    (setDefaults ed.Clone issue).Assignees.Default = issue.Logins ∧
    (setDefaults ed.Clone issue).Labels.Default = issue.Names ∧
    (setDefaults ed.Clone issue).Projects.Default = issue.ProjectNames ++ issue.ProjectTitles ∧
    (setDefaults ed.Clone issue).Milestone.Default
      = (match issue.Milestone with
         | some title => title
         | none => ed.Milestone.Default) ∧
    (setDefaults ed'.Clone issue).Title.Default = (setDefaults ed.Clone issue).Title.Default ∧
    (setDefaults ed'.Clone issue).Body.Default = (setDefaults ed.Clone issue).Body.Default ∧
    (setDefaults ed'.Clone issue).Assignees.Default
      = (setDefaults ed.Clone issue).Assignees.Default ∧
    (setDefaults ed'.Clone issue).Labels.Default = (setDefaults ed.Clone issue).Labels.Default ∧
    (setDefaults ed'.Clone issue).Projects.Default
      = (setDefaults ed.Clone issue).Projects.Default ∧
    (issue.Milestone ≠ none ∨ ed'.Milestone.Default = ed.Milestone.Default →
      (setDefaults ed'.Clone issue).Milestone.Default
        = (setDefaults ed.Clone issue).Milestone.Default) := by
  cases hm : issue.Milestone with
  | none => simp [setDefaults, Editable.Clone, hm]
  | some title => simp [setDefaults, Editable.Clone, hm]

/-- C6 witness: two canonical specs and the pull request `issue3`, which has the milestone "v1". -/
theorem C6_defaults_overlay_witness :
    issue3.Milestone ≠ none ∧
    (setDefaults specV2.Clone issue3).Milestone.Default
      = (setDefaults specV1.Clone issue3).Milestone.Default ∧
    (setDefaults specV1.Clone issue3).Milestone.Default = "v1" ∧
    (setDefaults specV1.Clone issue3).Labels.Default = ["core"] :=
  ⟨by decide,
   (C6_defaults_overlay specV1 specV2 issue3).2.2.2.2.2.2.2.2.2.2.2 (Or.inl (by decide)),
   (C6_defaults_overlay specV1 specV2 issue3).2.2.2.2.2.1,
   (C6_defaults_overlay specV1 specV2 issue3).2.2.2.1⟩

/-- C6 as stated fails: `issue1` has no milestone, the canonical specs `specV1` and
`specV2` differ in the milestone default slot only, and the edits built for `issue1`
differ: the milestone default handed to the updater is "v1" for the one and "v2" for the
other, so it is not given by the snapshot alone. -/
theorem C6_counterexample :
    issue1.Milestone = none ∧ sameEdits specV1 specV2 ∧
    (setDefaults specV1.Clone issue1).Milestone.Default = "v1" ∧
    (setDefaults specV2.Clone issue1).Milestone.Default = "v2" ∧
    (∃ r e, editRun oneIssue optsV1 [.go, .ret 0] = some r ∧
      updateCalls r.trace = [(issue1.ID, false, e)] ∧ e.Milestone.Default = "v1") ∧
    (∃ r e, editRun oneIssue optsV2 [.go, .ret 0] = some r ∧
      updateCalls r.trace = [(issue1.ID, false, e)] ∧ e.Milestone.Default = "v2") :=
  ⟨rfl, by unfold sameEdits; decide, rfl, rfl, ⟨_, _, rfl, rfl, rfl⟩, ⟨_, _, rfl, rfl, rfl⟩⟩

theorem sameEdits_setDefaults (ed : Editable) (issue : Issue) :
    sameEdits (setDefaults ed.Clone issue) ed := by
  cases hm : issue.Milestone <;> simp [sameEdits, setDefaults, Editable.Clone, hm]

/-- C7: in a batch without prompts `editRun` returns (under the schedule that runs the
tasks one by one), and in every run the edit of every update call has, for every field,
the `Edited` flag, the `Value`, the `Add` list and the `Remove` list of the canonical spec
as `FetchOptions` left it; there is one such call for each issue. -/
theorem C7_updater_gets_canonical_edits (api : Remote) (opts : EditOptions)
    (issues : List Issue) (ed : Editable) (hf : fetched api opts = some (issues, ed))
    (hni : opts.Interactive = false) :
    (∃ r, editRun api opts (seqSched 0 issues.length) = some r) ∧
    ∀ sched r, editRun api opts sched = some r →
      (∀ c ∈ updateCalls r.trace, sameEdits c.2.2 ed) ∧
      (updateCalls r.trace).length = issues.length := by
  refine ⟨editRun_live api opts issues ed hf, ?_⟩
  intro sched r hr
  have hperm := updateCalls_perm api opts issues ed hf hni sched r hr
  refine ⟨?_, by rw [hperm.length_eq, List.length_map]⟩
  intro c hc
  obtain ⟨issue, _, rfl⟩ := List.mem_map.mp (hperm.subset hc)
  exact sameEdits_setDefaults ed issue

/-- C7 witness: the batch of three issues with `Labels.Edited = true` and
`Labels.Add = ["bug"]`: each of the three update calls gets `Labels.Add = ["bug"]`. -/
theorem C7_updater_gets_canonical_edits_witness :
    fetched allOk addBug = some ([issue1, issue2, issue3], addBug.Editable) ∧
    addBug.Interactive = false ∧
    addBug.Editable.Labels.Edited = true ∧ addBug.Editable.Labels.Add = ["bug"] ∧
    ∀ sched r, editRun allOk addBug sched = some r →
      (∀ c ∈ updateCalls r.trace, c.2.2.Labels.Add = ["bug"] ∧ c.2.2.Labels.Remove = []) ∧
      (updateCalls r.trace).length = 3 :=
  ⟨rfl, rfl, rfl, rfl, fun sched r hr =>
    have h := (C7_updater_gets_canonical_edits allOk addBug [issue1, issue2, issue3]
      addBug.Editable rfl rfl).2 sched r hr
    ⟨fun c hc => ⟨(h.1 c hc).2.2.2.1.2.1, (h.1 c hc).2.2.2.1.2.2⟩, h.2⟩⟩


/-- C8: when no edit flag is given (a `--body-file` with the empty value counts as not
given) and there is more than one selector or the streams cannot prompt, `RunE` returns a
flag error and has made no call: it has read no file and has invoked neither `runF` nor
`editRun`, so nothing is fetched and nothing is updated. -/
theorem C8_interactive_rejected (f : Factory) (runF : Option (EditOptions → Option Err))
    (api : Remote) (fl : Flags) (args : List String) (sched : List Step)
    (hno : fl.title = none ∧ fl.body = none ∧ (fl.bodyFile = none ∨ fl.bodyFile = some "") ∧
      fl.addAssignee = none ∧ fl.removeAssignee = none ∧ fl.addLabel = none ∧
      fl.removeLabel = none ∧ fl.addProject = none ∧ fl.removeProject = none ∧
      fl.milestone = none)
    (hrej : 1 < args.length ∨ f.CanPrompt = false) :
    RunE f runF api fl args sched =
      some { err := some (.flag (if f.CanPrompt
                                 then "multiple issues cannot be edited interactively"
                                 else "field to edit flag required when not running interactively")),
             calls := [], out := [], trace := [] } := by
  obtain ⟨h₁, h₂, h₃, h₄, h₅, h₆, h₇, h₈, h₉, h₁₀⟩ := hno
  have hbf : (fl.bodyFile.getD "" != "") = false := by
    rcases h₃ with h | h <;> simp [h]
  have hp : processFlags f fl args
      = ([], .ok { newOptions f fl with SelectorArgs := args, Interactive := true }) := by
    simp [processFlags, MutuallyExclusive, hbf, h₁, h₂, h₄, h₅, h₆, h₇, h₈, h₉, h₁₀,
      Editable.Dirty, newOptions]
  unfold RunE
  rw [hp]
  cases hc : f.CanPrompt with
  | false => simp [newOptions, hc]
  | true =>
    have hlen : 1 < args.length := by
      rcases hrej with h | h
      · exact h
      · rw [hc] at h; exact absurd h (by simp)
    simp [newOptions, hc, hlen]

/-- C8 witness: `issue edit 1 2` on streams that can prompt. -/
theorem C8_interactive_rejected_witness :
    1 < ["1", "2"].length ∧
    ∀ sched, RunE { CanPrompt := true } none allOk {} ["1", "2"] sched =
      some { err := some (.flag "multiple issues cannot be edited interactively"),
             calls := [], out := [], trace := [] } :=
  ⟨by decide, fun sched =>
    C8_interactive_rejected { CanPrompt := true } none allOk {} ["1", "2"] sched
      ⟨rfl, rfl, Or.inl rfl, rfl, rfl, rfl, rfl, rfl, rfl, rfl⟩ (Or.inl (by decide))⟩

set_option maxHeartbeats 4000000 in
/-- The options with which `processFlags` ends when it does not return an error. -/
theorem processFlags_ok (f : Factory) (fl : Flags) (args : List String) (calls : List Call)
    (opts : EditOptions) (h : processFlags f fl args = (calls, .ok opts)) :
    opts.Editable.Title.Edited = fl.title.isSome ∧
    opts.Editable.Body.Edited = (fl.body.isSome || (fl.bodyFile.getD "" != "")) ∧
    opts.Editable.Assignees.Edited = (fl.addAssignee.isSome || fl.removeAssignee.isSome) ∧
    opts.Editable.Labels.Edited = (fl.addLabel.isSome || fl.removeLabel.isSome) ∧
    opts.Editable.Projects.Edited = (fl.addProject.isSome || fl.removeProject.isSome) ∧
    opts.Editable.Milestone.Edited = fl.milestone.isSome ∧
    opts.Interactive = !opts.Editable.Dirty ∧
    opts.SelectorArgs = args ∧ opts.CanPrompt = f.CanPrompt := by
  rcases hrf : f.ReadFile (fl.bodyFile.getD "") with err | b <;>
  cases h₂ : fl.body.isSome <;>
  cases h₃ : (fl.bodyFile.getD "" != "") <;>
  cases h₁ : fl.title.isSome <;>
  cases h₄ : (fl.addAssignee.isSome || fl.removeAssignee.isSome) <;>
  cases h₅ : (fl.addLabel.isSome || fl.removeLabel.isSome) <;>
  cases h₆ : (fl.addProject.isSome || fl.removeProject.isSome) <;>
  cases h₇ : fl.milestone.isSome <;>
  simp only [processFlags, MutuallyExclusive, hrf, h₁, h₂, h₃, h₄, h₅, h₆, h₇, List.filter, id,
    List.length, Bool.false_eq_true, if_false, if_true, Bool.or_false, Bool.or_true,
    Bool.false_or, Bool.true_or, gt_iff_lt, Nat.lt_irrefl, Nat.zero_add, Nat.lt_add_one,
    Nat.reduceLT, Nat.reduceAdd, Editable.Dirty, newOptions, Bool.not_false, Bool.not_true,
    Prod.mk.injEq, Except.ok.injEq, reduceCtorEq, and_false]
    at h <;>
  obtain ⟨_, rfl⟩ := h <;>
  simp [Editable.Dirty]


/-- What `RunE` does once the flags are processed and some field is marked `Edited`. -/
theorem RunE_of_dirty (f : Factory) (fl : Flags) (args : List String) (calls : List Call)
    (opts : EditOptions) (h : processFlags f fl args = (calls, .ok opts))
    (hi : opts.Interactive = false)
    (runF : Option (EditOptions → Option Err)) (api : Remote) (sched : List Step) :
    RunE f runF api fl args sched =
      match runF with
      | some runF => some { err := runF opts, calls := calls ++ [.runF opts] }
      | none =>
        (editRun api opts sched).map (fun r =>
          { err := r.err, calls := calls ++ [.editRun opts], out := r.out, trace := r.trace }) := by
  unfold RunE
  rw [h]
  simp only [hi, Bool.false_and, Bool.false_eq_true, if_false]
  cases runF with
  | some g => rfl
  | none => cases editRun api opts sched <;> rfl

/-- C9: when the processing of the flags ends without an error, `Title` is `Edited` iff
`--title` was given, `Body` iff `--body` or a non-empty `--body-file` was given,
`Assignees`, `Labels`, `Projects` iff one of their two flags was given, `Milestone` iff
`--milestone` was given, and `Interactive` is true exactly when none of the six fields is
`Edited`. With a field `Edited`, `Interactive` is false and `RunE` goes on to `runF`, or to
`editRun`, with these options: neither of the two interactive checks rejects the command. -/
theorem C9_interactive_iff_no_edit_flag (f : Factory) (fl : Flags) (args : List String)
    (calls : List Call) (opts : EditOptions)
    (h : processFlags f fl args = (calls, .ok opts)) :
    (opts.Editable.Title.Edited = true ↔ fl.title.isSome = true) ∧
    (opts.Editable.Body.Edited = true ↔
      fl.body.isSome = true ∨ ∃ file, fl.bodyFile = some file ∧ file ≠ "") ∧
    (opts.Editable.Assignees.Edited = true ↔
      fl.addAssignee.isSome = true ∨ fl.removeAssignee.isSome = true) ∧
    (opts.Editable.Labels.Edited = true ↔
      fl.addLabel.isSome = true ∨ fl.removeLabel.isSome = true) ∧
    (opts.Editable.Projects.Edited = true ↔
      fl.addProject.isSome = true ∨ fl.removeProject.isSome = true) ∧
    (opts.Editable.Milestone.Edited = true ↔ fl.milestone.isSome = true) ∧
    (opts.Interactive = true ↔
      opts.Editable.Title.Edited = false ∧ opts.Editable.Body.Edited = false ∧
      opts.Editable.Assignees.Edited = false ∧ opts.Editable.Labels.Edited = false ∧
      opts.Editable.Projects.Edited = false ∧ opts.Editable.Milestone.Edited = false) ∧
    (opts.Editable.Dirty = true →
      opts.Interactive = false ∧
      ∀ (runF : Option (EditOptions → Option Err)) (api : Remote) (sched : List Step),
        RunE f runF api fl args sched =
          match runF with
          | some runF => some { err := runF opts, calls := calls ++ [.runF opts] }
          | none =>
            (editRun api opts sched).map (fun r =>
              { err := r.err, calls := calls ++ [.editRun opts], out := r.out,
                trace := r.trace })) := by
  obtain ⟨h₁, h₂, h₃, h₄, h₅, h₆, h₇, _, _⟩ := processFlags_ok f fl args calls opts h
  refine ⟨by rw [h₁], ?_, by simp [h₃], by simp [h₄], by simp [h₅], by rw [h₆], ?_, ?_⟩
  · rw [h₂]
    cases hb : fl.bodyFile with
    | none => simp
    | some file => simp
  · rw [h₇]
    simp [Editable.Dirty, and_assoc]
  · intro hd
    have hi : opts.Interactive = false := by rw [h₇, hd]; rfl
    exact ⟨hi, RunE_of_dirty f fl args calls opts h hi⟩


/-- C9 witness: the flags of `--add-label bug`. -/
theorem C9_interactive_iff_no_edit_flag_witness :
    processFlags {} bugFlags ["1", "2"] = ([], .ok bugFlagsOptions) ∧
    bugFlagsOptions.Editable.Labels.Edited = true ∧
    bugFlagsOptions.Interactive = false ∧
    ∀ (runF : EditOptions → Option Err) (api : Remote) (sched : List Step),
      RunE {} (some runF) api bugFlags ["1", "2"] sched
        = some { err := runF bugFlagsOptions, calls := [] ++ [.runF bugFlagsOptions] } :=
  ⟨rfl, rfl, rfl, fun runF api sched =>
    ((C9_interactive_iff_no_edit_flag {} bugFlags ["1", "2"] [] bugFlagsOptions rfl).2.2.2.2.2.2.2
      rfl).2 (some runF) api sched⟩

/-- C10, as the code has it: when `--body` is given and `--body-file` is given with a
non-empty value, `RunE` returns the flag error "specify only one of `--body` or
`--body-file`" and has made no call: the file is not read, and neither `runF` nor `editRun`
is invoked. -/
theorem C10_body_flags_exclusive (f : Factory) (runF : Option (EditOptions → Option Err))
    (api : Remote) (fl : Flags) (args : List String) (sched : List Step)
    (body file : String) (hb : fl.body = some body) (hf : fl.bodyFile = some file)
    (hne : file ≠ "") :
    RunE f runF api fl args sched =
      some { err := some (.flag "specify only one of `--body` or `--body-file`"),
             calls := [], out := [], trace := [] } := by
  have hp : processFlags f fl args
      = ([], .error (.flag "specify only one of `--body` or `--body-file`")) := by
    simp [processFlags, MutuallyExclusive, hb, hf, hne]
  unfold RunE
  rw [hp]

/-- C10 witness: `--body text --body-file body.txt`. -/
theorem C10_body_flags_exclusive_witness :
    bodyAndFile.body = some "text" ∧ bodyAndFile.bodyFile = some "body.txt" ∧
    ∀ sched, RunE {} none allOk bodyAndFile ["1"] sched =
      some { err := some (.flag "specify only one of `--body` or `--body-file`"),
             calls := [], out := [], trace := [] } :=
  ⟨rfl, rfl, fun sched =>
    C10_body_flags_exclusive {} none allOk bodyAndFile ["1"] sched "text" "body.txt" rfl rfl
      (by decide)⟩

/-- C10 as stated fails: with `--body text --body-file ""` both flags are given, and `RunE`
does not fail: it hands the options on to `runF`, and without `runF` it runs `editRun`,
which fetches the three issues and updates each of them. -/
theorem C10_counterexample :
    bodyAndEmptyFile.body.isSome = true ∧ bodyAndEmptyFile.bodyFile.isSome = true ∧
    (∃ r, RunE {} (some fun _ => none) allOk bodyAndEmptyFile ["1"] [] = some r ∧
      r.err = none ∧ r.calls.length = 1) ∧
    (∃ r, RunE {} none allOk bodyAndEmptyFile ["1"] (seqSched 0 3) = some r ∧
      r.err = none ∧ r.out.length = 3 ∧ (updateCalls r.trace).length = 3) :=
  ⟨rfl, rfl, ⟨_, rfl, rfl, rfl⟩, ⟨_, rfl, rfl, rfl, rfl⟩⟩




/-! ## The calls before the loop -/

theorem fetched_of_surveyed (api : Remote) (opts : EditOptions) (ed₀ ed : Editable)
    (issues : List Issue) (hs : surveyed opts = some ed₀)
    (hi : api.IssuesFromArgsWithFields opts.SelectorArgs (lookupFields ed₀) = .ok issues)
    (hfo : opts.FetchOptions ed₀ = .ok ed) :
    fetched api opts = some (issues, ed) := by
  unfold surveyed at hs
  unfold fetched
  split at hs
  · exact absurd hs (by simp)
  · rename_i hc
    split at hs
    · exact absurd hs (by simp)
    · rename_i e' he'
      simp only [Option.some.injEq] at hs
      subst hs
      simp only [he', hi, hfo]

theorem surveyed_of_fetched (api : Remote) (opts : EditOptions) (ed : Editable)
    (issues : List Issue) (hf : fetched api opts = some (issues, ed)) :
    ∃ ed₀, surveyed opts = some ed₀ ∧
      api.IssuesFromArgsWithFields opts.SelectorArgs (lookupFields ed₀) = .ok issues ∧
      opts.FetchOptions ed₀ = .ok ed := by
  unfold fetched at hf
  unfold surveyed
  split at hf
  · exact absurd hf (by simp)
  · rename_i hc
    split at hf
    · exact absurd hf (by simp)
    · rename_i ed₀ hs
      split at hf
      · exact absurd hf (by simp)
      · rename_i issues' hi
        split at hf
        · exact absurd hf (by simp)
        · rename_i ed' hfo
          simp only [Option.some.injEq, Prod.mk.injEq] at hf
          obtain ⟨rfl, rfl⟩ := hf
          exact ⟨ed₀, by simp only [hs], hi, hfo⟩

/-- The runs of `editRun` that end before the loop. -/
theorem editRun_early (api : Remote) (opts : EditOptions) (sched : List Step) :
    (surveyed opts = none →
      ∃ e t, editRun api opts sched = some { err := some e, trace := t } ∧
        ∀ ev ∈ t, ev = .fieldsToEditSurvey opts.Editable) ∧
    (∀ ed₀ e, surveyed opts = some ed₀ →
      api.IssuesFromArgsWithFields opts.SelectorArgs (lookupFields ed₀) = .error e →
      editRun api opts sched = some
        { err := some e,
          trace := (if opts.Interactive then [Event.fieldsToEditSurvey opts.Editable] else []) ++
            [.issuesFromArgs opts.SelectorArgs (lookupFields ed₀)] }) ∧
    (∀ ed₀ issues e, surveyed opts = some ed₀ →
      api.IssuesFromArgsWithFields opts.SelectorArgs (lookupFields ed₀) = .ok issues →
      opts.FetchOptions ed₀ = .error e →
      editRun api opts sched = some
        { err := some e,
          trace := (if opts.Interactive then [Event.fieldsToEditSurvey opts.Editable] else []) ++
            [.issuesFromArgs opts.SelectorArgs (lookupFields ed₀), .fetchOptions ed₀] }) := by
  unfold surveyed editRun
  cases hc : opts.HttpClient with
  | some e => exact ⟨fun _ => ⟨e, [], rfl, by simp⟩, by simp, by simp⟩
  | none =>
    cases hI : opts.Interactive with
    | false =>
      simp only [Bool.false_eq_true, if_false]
      refine ⟨by simp, ?_, ?_⟩
      · intro ed₀ e hs hi
        simp only [Option.some.injEq] at hs
        subst hs
        simp only [hi, List.nil_append]
      · intro ed₀ issues e hs hi hfo
        simp only [Option.some.injEq] at hs
        subst hs
        simp only [hi, hfo, List.nil_append, List.singleton_append]
    | true =>
      simp only [if_true]
      cases hs : opts.FieldsToEditSurvey opts.Editable with
      | error e => exact ⟨fun _ => ⟨e, _, rfl, by simp⟩, by simp, by simp⟩
      | ok ed₁ =>
        refine ⟨by simp, ?_, ?_⟩
        · intro ed₀ e hs' hi
          simp only [Option.some.injEq] at hs'
          subst hs'
          simp only [hi]
        · intro ed₀ issues e hs' hi hfo
          simp only [Option.some.injEq] at hs'
          subst hs'
          simp only [hi, hfo, List.append_assoc, List.singleton_append, List.cons_append,
            List.nil_append]


/-- The calls a goroutine makes are calls of the editor lookup, of the prompt and of the
update. -/
theorem task_events (api : Remote) (opts : EditOptions) (i : Nat) (issue : Issue)
    (e : Editable) : ∀ ev ∈ (task api opts i issue e).1,
      (∀ ed, ev ≠ .fieldsToEditSurvey ed) ∧ (∀ a f, ev ≠ .issuesFromArgs a f) ∧
      (∀ ed, ev ≠ .fetchOptions ed) ∧ (∀ n, ev ≠ .setLimit n) := by
  unfold task
  dsimp only
  cases opts.Interactive
  · simp
  · cases hd : opts.DetermineEditor i with
    | error err => simp
    | ok cmd =>
      cases hs : opts.EditFieldsSurvey i (setDefaults e issue) cmd with
      | error err => simp [hs]
      | ok edited => simp [hs]

theorem fetchOptionsCalls_append (t₁ t₂ : List Event) :
    fetchOptionsCalls (t₁ ++ t₂) = fetchOptionsCalls t₁ ++ fetchOptionsCalls t₂ := by
  induction t₁ with
  | nil => rfl
  | cons e t ih => cases e <;> simp [fetchOptionsCalls, ih]

theorem fetchOptionsCalls_eq_nil (t : List Event) (h : ∀ ed, Event.fetchOptions ed ∉ t) :
    fetchOptionsCalls t = [] := by
  induction t with
  | nil => rfl
  | cons e t ih =>
    have ht : ∀ ed, Event.fetchOptions ed ∉ t := fun ed hm => h ed (List.mem_cons_of_mem _ hm)
    cases e <;> simp [fetchOptionsCalls, ih ht]
    exact h _ (List.mem_cons_self _ _)

theorem fetchOptionsCalls_prologue (opts : EditOptions) (ed₀ : Editable) :
    fetchOptionsCalls (prologue opts ed₀) = [ed₀] := by
  unfold prologue
  cases opts.Interactive <;> simp [fetchOptionsCalls]

theorem fetchOptionsCalls_tasks (api : Remote) (opts : EditOptions) (order : List Task) :
    fetchOptionsCalls (order.flatMap (fun t => (t.run api opts).1)) = [] := by
  apply fetchOptionsCalls_eq_nil
  intro ed hm
  obtain ⟨t, _, hmem⟩ := List.mem_flatMap.mp hm
  exact (task_events api opts _ _ _ _ hmem).2.2.1 ed rfl

theorem updateCalls_eq_nil (t : List Event) (h : ∀ id pr e, Event.updateIssue id pr e ∉ t) :
    updateCalls t = [] := by
  induction t with
  | nil => rfl
  | cons e t ih =>
    have ht : ∀ id pr e', Event.updateIssue id pr e' ∉ t :=
      fun id pr e' hm => h id pr e' (List.mem_cons_of_mem _ hm)
    cases e <;> simp [updateCalls, ih ht]
    exact h _ _ _ (List.mem_cons_self _ _)

/-- Under some schedule `editRun` returns, whatever the collaborators do. -/
theorem editRun_returns (api : Remote) (opts : EditOptions) :
    ∃ sched r, editRun api opts sched = some r := by
  cases hs : surveyed opts with
  | none =>
    obtain ⟨e, t, h, _⟩ := (editRun_early api opts []).1 hs
    exact ⟨[], _, h⟩
  | some ed₀ =>
    cases hi : api.IssuesFromArgsWithFields opts.SelectorArgs (lookupFields ed₀) with
    | error e => exact ⟨[], _, (editRun_early api opts []).2.1 ed₀ e hs hi⟩
    | ok issues =>
      cases hfo : opts.FetchOptions ed₀ with
      | error e => exact ⟨[], _, (editRun_early api opts []).2.2 ed₀ issues e hs hi hfo⟩
      | ok ed =>
        obtain ⟨r, hr⟩ := editRun_live api opts issues ed
          (fetched_of_surveyed api opts ed₀ ed issues hs hi hfo)
        exact ⟨_, r, hr⟩

/-- The run of `editRun` from the loop on, in terms of the `editable` after the survey. -/
theorem editRun_of_surveyed (api : Remote) (opts : EditOptions) (ed₀ ed : Editable)
    (issues : List Issue) (hs : surveyed opts = some ed₀)
    (hi : api.IssuesFromArgsWithFields opts.SelectorArgs (lookupFields ed₀) = .ok issues)
    (hfo : opts.FetchOptions ed₀ = .ok ed) (sched : List Step) :
    editRun api opts sched =
      match Batch.run api opts issues ed
        { g := Group.SetLimit {} (if opts.workers = 0 then 10 else opts.workers),
          trace := prologue opts ed₀ } sched with
      | none => none
      | some b =>
        if b.i = issues.length ∧ b.g.running = [] then
          match b.g.err with
          | some err => some { err := some err, trace := b.trace }
          | none => some { err := none, out := b.issueURLs, trace := b.trace }
        else none := by
  unfold surveyed at hs
  unfold editRun prologue
  cases hc : opts.HttpClient with
  | some e => simp [hc] at hs
  | none =>
    simp only [hc] at hs
    cases hI : opts.Interactive with
    | false =>
      simp only [hI, Bool.false_eq_true, if_false, Option.some.injEq] at hs
      subst hs
      simp only [Bool.false_eq_true, if_false, hi, hfo, List.nil_append,
        List.singleton_append, List.cons_append]
    | true =>
      simp only [hI, if_true] at hs
      cases hsv : opts.FieldsToEditSurvey opts.Editable with
      | error e => simp [hsv] at hs
      | ok ed₁ =>
        simp only [hsv, Option.some.injEq] at hs
        subst hs
        simp only [if_true, hsv, hi, hfo, List.singleton_append, List.cons_append,
          List.nil_append, List.append_assoc]

/-- The trace of a run of `editRun` that reaches the loop: the calls before the loop, made with
the `editable` after the survey, then the calls of the goroutines. -/
theorem editRun_trace (api : Remote) (opts : EditOptions) (ed₀ ed : Editable)
    (issues : List Issue) (hs : surveyed opts = some ed₀)
    (hi : api.IssuesFromArgsWithFields opts.SelectorArgs (lookupFields ed₀) = .ok issues)
    (hfo : opts.FetchOptions ed₀ = .ok ed) (sched : List Step) (r : Outcome)
    (hr : editRun api opts sched = some r) :
    ∃ order : List Task, r.trace = prologue opts ed₀ ++ order.flatMap (fun t => (t.run api opts).1) := by
  rw [editRun_of_surveyed api opts ed₀ ed issues hs hi hfo sched] at hr
  split at hr
  · exact absurd hr (by simp)
  · rename_i b hb
    split at hr
    · rename_i hfin
      obtain ⟨_, order, _, ht⟩ := traced_run api opts issues ed (prologue opts ed₀) sched _ b
        (wf_init issues ed _ (SetLimit_running _ _))
        ⟨[], by simp [Batch.uncalled, SetLimit_running], by simp⟩ hb
      refine ⟨order, ?_⟩
      split at hr <;>
      · simp only [Option.some.injEq] at hr
        subst hr
        exact ht
    · exact absurd hr (by simp)

/-- C13: the fields `editRun` asks for are the five fixed fields followed, in this order, by
"assignees" iff `Assignees.Edited`, "labels" iff `Labels.Edited`, "projectCards" and
"projectItems" iff `Projects.Edited`, "milestone" iff `Milestone.Edited`; the list has no
duplicates and between 5 and 10 elements. Every fetch of issues in a run of `editRun` asks
for the selectors of the options and for this list, computed from the `editable` as it is
after the survey. -/
theorem C13_lookup_fields (e : Editable) :
    lookupFields e
      = ["id", "number", "title", "body", "url"] ++
        (if e.Assignees.Edited then ["assignees"] else []) ++
        (if e.Labels.Edited then ["labels"] else []) ++
        (if e.Projects.Edited then ["projectCards", "projectItems"] else []) ++
        (if e.Milestone.Edited then ["milestone"] else []) ∧
    (lookupFields e).Nodup ∧
    5 ≤ (lookupFields e).length ∧ (lookupFields e).length ≤ 10 ∧
    ∀ (api : Remote) (opts : EditOptions) (sched : List Step) (r : Outcome),
      editRun api opts sched = some r →
      ∀ args fields, Event.issuesFromArgs args fields ∈ r.trace →
        args = opts.SelectorArgs ∧ ∃ ed₀, surveyed opts = some ed₀ ∧ fields = lookupFields ed₀ := by
  refine ⟨?_, ?_, ?_, ?_, ?_⟩
  · unfold lookupFields
    cases e.Assignees.Edited <;> cases e.Labels.Edited <;> cases e.Projects.Edited <;>
      cases e.Milestone.Edited <;> rfl
  · unfold lookupFields
    cases e.Assignees.Edited <;> cases e.Labels.Edited <;> cases e.Projects.Edited <;>
      cases e.Milestone.Edited <;> decide
  · unfold lookupFields
    cases e.Assignees.Edited <;> cases e.Labels.Edited <;> cases e.Projects.Edited <;>
      cases e.Milestone.Edited <;> decide
  · unfold lookupFields
    cases e.Assignees.Edited <;> cases e.Labels.Edited <;> cases e.Projects.Edited <;>
      cases e.Milestone.Edited <;> decide
  · intro api opts sched r hr args fields hmem
    cases hs : surveyed opts with
    | none =>
      obtain ⟨e', t, h, ht⟩ := (editRun_early api opts sched).1 hs
      rw [h] at hr
      simp only [Option.some.injEq] at hr
      subst hr
      exact absurd (ht _ hmem) (by simp)
    | some ed₀ =>
      suffices hgoal : args = opts.SelectorArgs ∧ fields = lookupFields ed₀ from
        ⟨hgoal.1, ed₀, rfl, hgoal.2⟩
      have hpro : ∀ t : List Event, (∀ a f, Event.issuesFromArgs a f ∉ t) →
          Event.issuesFromArgs args fields ∈
            (if opts.Interactive then [Event.fieldsToEditSurvey opts.Editable] else []) ++
              Event.issuesFromArgs opts.SelectorArgs (lookupFields ed₀) :: t →
          args = opts.SelectorArgs ∧ fields = lookupFields ed₀ := by
        intro t ht h
        have h' : Event.issuesFromArgs args fields
            = Event.issuesFromArgs opts.SelectorArgs (lookupFields ed₀) ∨
            Event.issuesFromArgs args fields ∈ t := by
          cases opts.Interactive <;> simpa using h
        rcases h' with h' | h'
        · simpa using h'
        · exact absurd h' (ht _ _)
      cases hi : api.IssuesFromArgsWithFields opts.SelectorArgs (lookupFields ed₀) with
      | error e' =>
        rw [(editRun_early api opts sched).2.1 ed₀ e' hs hi] at hr
        simp only [Option.some.injEq] at hr
        subst hr
        exact hpro [] (by simp) hmem
      | ok issues =>
        cases hfo : opts.FetchOptions ed₀ with
        | error e' =>
          rw [(editRun_early api opts sched).2.2 ed₀ issues e' hs hi hfo] at hr
          simp only [Option.some.injEq] at hr
          subst hr
          exact hpro [.fetchOptions ed₀] (by simp) hmem
        | ok ed =>
          obtain ⟨order, ht⟩ := editRun_trace api opts ed₀ ed issues hs hi hfo sched r hr
          rw [ht] at hmem
          unfold prologue at hmem
          apply hpro (.fetchOptions ed₀ ::
            .setLimit (if opts.workers = 0 then 10 else opts.workers) ::
            order.flatMap (fun t => (t.run api opts).1))
          · intro a f hm
            simp only [List.mem_cons, reduceCtorEq, false_or] at hm
            obtain ⟨t, _, hm'⟩ := List.mem_flatMap.mp hm
            exact (task_events api opts _ _ _ _ hm').2.1 a f rfl
          · simpa using hmem


/-- C13 witness: the options `addBug`, in which only the labels are edited. -/
theorem C13_lookup_fields_witness :
    lookupFields addBug.Editable = ["id", "number", "title", "body", "url", "labels"] ∧
    ∀ sched r, editRun allOk addBug sched = some r →
      ∀ args fields, Event.issuesFromArgs args fields ∈ r.trace →
        args = ["1", "2"] ∧ fields = ["id", "number", "title", "body", "url", "labels"] :=
  ⟨(C13_lookup_fields addBug.Editable).1, fun sched r hr args fields hmem =>
    match (C13_lookup_fields addBug.Editable).2.2.2.2 allOk addBug sched r hr args fields hmem with
    | ⟨ha, ed₀, hs, hf⟩ => ⟨ha, by
        have : addBug.Editable = ed₀ := Option.some.inj hs
        rw [hf, ← this]; rfl⟩⟩

/-- The four ways in which a run of `editRun` ends. -/
theorem editRun_cases (api : Remote) (opts : EditOptions) (sched : List Step) (r : Outcome)
    (hr : editRun api opts sched = some r) :
    (surveyed opts = none ∧ ∃ e t, r = { err := some e, trace := t } ∧
      ∀ ev ∈ t, ev = .fieldsToEditSurvey opts.Editable) ∨
    (∃ ed₀ e, surveyed opts = some ed₀ ∧
      api.IssuesFromArgsWithFields opts.SelectorArgs (lookupFields ed₀) = .error e ∧
      r = { err := some e,
            trace := (if opts.Interactive then [Event.fieldsToEditSurvey opts.Editable] else []) ++
              [.issuesFromArgs opts.SelectorArgs (lookupFields ed₀)] }) ∨
    (∃ ed₀ issues e, surveyed opts = some ed₀ ∧
      api.IssuesFromArgsWithFields opts.SelectorArgs (lookupFields ed₀) = .ok issues ∧
      opts.FetchOptions ed₀ = .error e ∧
      r = { err := some e,
            trace := (if opts.Interactive then [Event.fieldsToEditSurvey opts.Editable] else []) ++
              [.issuesFromArgs opts.SelectorArgs (lookupFields ed₀), .fetchOptions ed₀] }) ∨
    (∃ (ed₀ : Editable) (issues : List Issue) (ed : Editable) (order : List Task),
      surveyed opts = some ed₀ ∧
      api.IssuesFromArgsWithFields opts.SelectorArgs (lookupFields ed₀) = .ok issues ∧
      opts.FetchOptions ed₀ = .ok ed ∧
      r.trace = prologue opts ed₀ ++ order.flatMap (fun t => (t.run api opts).1)) := by
  cases hs : surveyed opts with
  | none =>
    obtain ⟨e, t, h, ht⟩ := (editRun_early api opts sched).1 hs
    rw [h] at hr
    exact Or.inl ⟨rfl, e, t, (Option.some.inj hr).symm, ht⟩
  | some ed₀ =>
    right
    cases hi : api.IssuesFromArgsWithFields opts.SelectorArgs (lookupFields ed₀) with
    | error e =>
      rw [(editRun_early api opts sched).2.1 ed₀ e hs hi] at hr
      exact Or.inl ⟨ed₀, e, rfl, hi, (Option.some.inj hr).symm⟩
    | ok issues =>
      right
      cases hfo : opts.FetchOptions ed₀ with
      | error e =>
        rw [(editRun_early api opts sched).2.2 ed₀ issues e hs hi hfo] at hr
        exact Or.inl ⟨ed₀, issues, e, rfl, hi, hfo, (Option.some.inj hr).symm⟩
      | ok ed =>
        obtain ⟨order, ht⟩ := editRun_trace api opts ed₀ ed issues hs hi hfo sched r hr
        exact Or.inr ⟨ed₀, issues, ed, order, rfl, hi, hfo, ht⟩


theorem mem_before_split {α : Type} (p q t₁ t₂ : List α) (x y : α)
    (h : p ++ q = t₁ ++ x :: t₂) (hx : x ∉ p) (hy : y ∈ p) : y ∈ t₁ := by
  rcases List.append_eq_append_iff.mp h with ⟨a, h₁, _⟩ | ⟨c, h₁, h₂⟩
  · rw [h₁]; exact List.mem_append_left _ hy
  · cases c with
    | nil => rw [h₁] at hy; simpa using hy
    | cons z c =>
      simp only [List.cons_append, List.cons.injEq] at h₂
      exact absurd (by rw [h₁, h₂.1]; simp) hx

theorem updateIssue_not_mem_prologue (opts : EditOptions) (ed₀ : Editable) (id : String)
    (pr : Bool) (e : Editable) : Event.updateIssue id pr e ∉ prologue opts ed₀ := by
  unfold prologue
  cases opts.Interactive <;> simp

/-- C11: `editRun` returns under some schedule, and in every run `FetchOptions` is called at
most once; it is called exactly once (with the `editable` after the survey) when the
fetch of the issues succeeds, whatever the size of the batch, and this call comes before
every update call of the trace. When the fetch of the issues or `FetchOptions` returns an
error, `editRun` returns this error, makes no update call and writes no url. -/
theorem C11_options_fetched_once (api : Remote) (opts : EditOptions) :
    (∃ sched r, editRun api opts sched = some r) ∧
    ∀ sched r, editRun api opts sched = some r →
      (fetchOptionsCalls r.trace).length ≤ 1 ∧
      (∀ ed₀ issues, surveyed opts = some ed₀ →
        api.IssuesFromArgsWithFields opts.SelectorArgs (lookupFields ed₀) = .ok issues →
        fetchOptionsCalls r.trace = [ed₀]) ∧
      (∀ t₁ t₂ id pr e, r.trace = t₁ ++ Event.updateIssue id pr e :: t₂ →
        ∃ ed, Event.fetchOptions ed ∈ t₁) ∧
      (∀ ed₀ e, surveyed opts = some ed₀ →
        api.IssuesFromArgsWithFields opts.SelectorArgs (lookupFields ed₀) = .error e →
        r.err = some e ∧ updateCalls r.trace = [] ∧ r.out = [] ∧
        fetchOptionsCalls r.trace = []) ∧
      (∀ ed₀ issues e, surveyed opts = some ed₀ →
        api.IssuesFromArgsWithFields opts.SelectorArgs (lookupFields ed₀) = .ok issues →
        opts.FetchOptions ed₀ = .error e →
        r.err = some e ∧ updateCalls r.trace = [] ∧ r.out = []) := by
  refine ⟨editRun_returns api opts, ?_⟩
  intro sched r hr
  rcases editRun_cases api opts sched r hr with
    ⟨hs, e, t, rfl, ht⟩ | ⟨ed₀, e, hs, hi, rfl⟩ | ⟨ed₀, issues, e, hs, hi, hfo, rfl⟩ |
    ⟨ed₀, issues, ed, order, hs, hi, hfo, ht⟩
  · have hfc : fetchOptionsCalls t = [] :=
      fetchOptionsCalls_eq_nil t (fun ed hm => absurd (ht _ hm) (by simp))
    refine ⟨by simp [hfc], ?_, ?_, ?_, ?_⟩
    · intro ed₀ issues hs'; rw [hs] at hs'; exact absurd hs' (by simp)
    · intro t₁ t₂ id pr e' hsplit
      have hm : Event.updateIssue id pr e' ∈ t := by
        show Event.updateIssue id pr e' ∈ ({ err := some e, trace := t } : Outcome).trace
        rw [hsplit]; simp
      exact absurd (ht _ hm) (by simp)
    · intro ed₀ e' hs'; rw [hs] at hs'; exact absurd hs' (by simp)
    · intro ed₀ issues e' hs'; rw [hs] at hs'; exact absurd hs' (by simp)
  · have hfc : fetchOptionsCalls
        ((if opts.Interactive then [Event.fieldsToEditSurvey opts.Editable] else []) ++
          [.issuesFromArgs opts.SelectorArgs (lookupFields ed₀)]) = [] := by
      cases opts.Interactive <;> simp [fetchOptionsCalls]
    have huc : updateCalls
        ((if opts.Interactive then [Event.fieldsToEditSurvey opts.Editable] else []) ++
          [.issuesFromArgs opts.SelectorArgs (lookupFields ed₀)]) = [] := by
      cases opts.Interactive <;> simp [updateCalls]
    refine ⟨by simp [hfc], ?_, ?_, ?_, ?_⟩
    · intro ed₁ issues hs' hi'
      rw [hs] at hs'
      obtain rfl := Option.some.inj hs'
      rw [hi] at hi'; exact absurd hi' (by simp)
    · intro t₁ t₂ id pr e' hsplit
      have hm : Event.updateIssue id pr e' ∈
          (if opts.Interactive then [Event.fieldsToEditSurvey opts.Editable] else []) ++
            [Event.issuesFromArgs opts.SelectorArgs (lookupFields ed₀)] := by
        simp only at hsplit
        rw [hsplit]; simp
      cases opts.Interactive <;> simp at hm
    · intro ed₁ e' hs' hi'
      rw [hs] at hs'
      obtain rfl := Option.some.inj hs'
      rw [hi] at hi'
      simp only [Except.error.injEq] at hi'
      subst hi'
      exact ⟨rfl, huc, rfl, hfc⟩
    · intro ed₁ issues e' hs' hi'
      rw [hs] at hs'
      obtain rfl := Option.some.inj hs'
      rw [hi] at hi'; exact absurd hi' (by simp)
  · have hfc : fetchOptionsCalls
        ((if opts.Interactive then [Event.fieldsToEditSurvey opts.Editable] else []) ++
          [.issuesFromArgs opts.SelectorArgs (lookupFields ed₀), .fetchOptions ed₀]) = [ed₀] := by
      cases opts.Interactive <;> simp [fetchOptionsCalls]
    have huc : updateCalls
        ((if opts.Interactive then [Event.fieldsToEditSurvey opts.Editable] else []) ++
          [.issuesFromArgs opts.SelectorArgs (lookupFields ed₀), .fetchOptions ed₀]) = [] := by
      cases opts.Interactive <;> simp [updateCalls]
    refine ⟨by simp [hfc], ?_, ?_, ?_, ?_⟩
    · intro ed₁ issues' hs' _
      rw [hs] at hs'
      obtain rfl := Option.some.inj hs'
      exact hfc
    · intro t₁ t₂ id pr e' hsplit
      have hm : Event.updateIssue id pr e' ∈
          (if opts.Interactive then [Event.fieldsToEditSurvey opts.Editable] else []) ++
            [Event.issuesFromArgs opts.SelectorArgs (lookupFields ed₀), .fetchOptions ed₀] := by
        simp only at hsplit
        rw [hsplit]; simp
      cases opts.Interactive <;> simp at hm
    · intro ed₁ e' hs' hi'
      rw [hs] at hs'
      obtain rfl := Option.some.inj hs'
      rw [hi] at hi'; exact absurd hi' (by simp)
    · intro ed₁ issues' e' hs' _ hfo'
      rw [hs] at hs'
      obtain rfl := Option.some.inj hs'
      rw [hfo] at hfo'
      simp only [Except.error.injEq] at hfo'
      subst hfo'
      exact ⟨rfl, huc, rfl⟩
  · have hfc : fetchOptionsCalls r.trace = [ed₀] := by
      rw [ht, fetchOptionsCalls_append, fetchOptionsCalls_prologue, fetchOptionsCalls_tasks]
      rfl
    refine ⟨by simp [hfc], ?_, ?_, ?_, ?_⟩
    · intro ed₁ issues' hs' _
      rw [hs] at hs'
      obtain rfl := Option.some.inj hs'
      exact hfc
    · intro t₁ t₂ id pr e' hsplit
      refine ⟨ed₀, mem_before_split _ _ t₁ t₂ _ _ (ht.symm.trans hsplit)
        (updateIssue_not_mem_prologue opts ed₀ id pr e') ?_⟩
      unfold prologue
      simp
    · intro ed₁ e' hs' hi'
      rw [hs] at hs'
      obtain rfl := Option.some.inj hs'
      rw [hi] at hi'; exact absurd hi' (by simp)
    · intro ed₁ issues' e' hs' _ hfo'
      rw [hs] at hs'
      obtain rfl := Option.some.inj hs'
      rw [hfo] at hfo'; exact absurd hfo' (by simp)


/-- C11 witness: the batch of three issues: `FetchOptions` is called once, with the
canonical spec. -/
theorem C11_options_fetched_once_witness :
    (∃ sched r, editRun allOk addBug sched = some r) ∧
    ∀ sched r, editRun allOk addBug sched = some r →
      fetchOptionsCalls r.trace = [addBug.Editable] :=
  ⟨(C11_options_fetched_once allOk addBug).1, fun sched r hr =>
    ((C11_options_fetched_once allOk addBug).2 sched r hr).2.1 addBug.Editable
      [issue1, issue2, issue3] rfl rfl⟩






/-! ## Clones in a store: isolation -/

/-- The value of an `Editable` depends on the cells at its addresses only. -/
theorem value_congr (e : EditableRefs) (s s' : Store)
    (h : ∀ a ∈ e.addrs, s'[a]? = s[a]?) : e.value s' = e.value s := by
  have h1 : ∀ a ∈ e.addrs, Store.slice s' a = Store.slice s a := by
    intro a ha; unfold Store.slice; rw [h a ha]
  have h2 : ∀ a ∈ e.addrs, Store.map s' a = Store.map s a := by
    intro a ha; unfold Store.map; rw [h a ha]
  unfold EditableRefs.value
  rw [h1 e.Assignees.Add (by simp [EditableRefs.addrs]),
    h1 e.Assignees.Remove (by simp [EditableRefs.addrs]),
    h1 e.Assignees.Default (by simp [EditableRefs.addrs]),
    h1 e.Labels.Add (by simp [EditableRefs.addrs]),
    h1 e.Labels.Remove (by simp [EditableRefs.addrs]),
    h1 e.Labels.Default (by simp [EditableRefs.addrs]),
    h1 e.Projects.Add (by simp [EditableRefs.addrs]),
    h1 e.Projects.Remove (by simp [EditableRefs.addrs]),
    h1 e.Projects.Default (by simp [EditableRefs.addrs]),
    h2 e.Projects.ProjectItems (by simp [EditableRefs.addrs])]

theorem cloneRefs_length (s : Store) (e : EditableRefs) :
    (cloneRefs s e).1.length = s.length + 10 := by
  simp [cloneRefs]

theorem cloneRefs_prefix (s : Store) (e : EditableRefs) (a : Nat) (ha : a < s.length) :
    (cloneRefs s e).1[a]? = s[a]? := by
  simp only [cloneRefs]
  exact List.getElem?_append_left ha

theorem cloneRefs_addrs (s : Store) (e : EditableRefs) :
    (cloneRefs s e).2.addrs = List.range' s.length 10 := by
  simp [cloneRefs, EditableRefs.addrs, List.range']

theorem slice_append (s cells : Store) (k : Nat) (v : List String)
    (h : cells[k]? = some (.slice v)) : Store.slice (s ++ cells) (s.length + k) = v := by
  unfold Store.slice
  rw [List.getElem?_append_right (Nat.le_add_right _ _), Nat.add_sub_cancel_left, h]

theorem map_append (s cells : Store) (k : Nat) (m : List (String × String))
    (h : cells[k]? = some (.map m)) : Store.map (s ++ cells) (s.length + k) = m := by
  unfold Store.map
  rw [List.getElem?_append_right (Nat.le_add_right _ _), Nat.add_sub_cancel_left, h]

/-- The clone reads what the original reads: on values, `cloneRefs` is `Editable.Clone`. -/
theorem cloneRefs_value (s : Store) (e : EditableRefs) :
    (cloneRefs s e).2.value (cloneRefs s e).1 = (e.value s).Clone := by
  unfold cloneRefs EditableRefs.value Editable.Clone
  dsimp only
  have h0 := slice_append s _ 0 _ (rfl : [Cell.slice (s.slice e.Assignees.Add),
    .slice (s.slice e.Assignees.Remove), .slice (s.slice e.Assignees.Default),
    .slice (s.slice e.Labels.Add), .slice (s.slice e.Labels.Remove),
    .slice (s.slice e.Labels.Default), .slice (s.slice e.Projects.Add),
    .slice (s.slice e.Projects.Remove), .slice (s.slice e.Projects.Default),
    .map (s.map e.Projects.ProjectItems)][0]? = _)
  rw [Nat.add_zero] at h0
  rw [h0, slice_append s _ 1 _ rfl, slice_append s _ 2 _ rfl, slice_append s _ 3 _ rfl,
    slice_append s _ 4 _ rfl, slice_append s _ 5 _ rfl, slice_append s _ 6 _ rfl,
    slice_append s _ 7 _ rfl, slice_append s _ 8 _ rfl, map_append s _ 9 _ rfl]


theorem mutate_getElem (ws : List (Nat × Cell)) : ∀ (s : Store) (a : Nat),
    (∀ w ∈ ws, w.1 ≠ a) → (s.mutate ws)[a]? = s[a]? := by
  induction ws with
  | nil => intro s a _; rfl
  | cons w ws ih =>
    intro s a h
    obtain ⟨b, c⟩ := w
    simp only [Store.mutate]
    rw [ih _ a (fun w hw => h w (List.mem_cons_of_mem _ hw))]
    exact List.getElem?_set_ne (h (b, c) (List.mem_cons_self _ _))

/-- The clones of the loop: the store grows by ten cells for each, the cells that were there
stay, the `k`-th clone holds the ten addresses allocated for it and reads what the
canonical spec reads. -/
theorem cloneAll_spec (e : EditableRefs) (n : Nat) : ∀ (s : Store),
    (∀ a ∈ e.addrs, a < s.length) →
    (cloneAll s e n).1.length = s.length + 10 * n ∧
    (∀ a, a < s.length → (cloneAll s e n).1[a]? = s[a]?) ∧
    (cloneAll s e n).2.length = n ∧
    ∀ k c, (cloneAll s e n).2[k]? = some c →
      c.addrs = List.range' (s.length + 10 * k) 10 ∧
      c.value (cloneAll s e n).1 = (e.value s).Clone := by
  induction n with
  | zero =>
    intro s _
    simp [cloneAll]
  | succ n ih =>
    intro s hv
    have hv' : ∀ a ∈ e.addrs, a < (cloneRefs s e).1.length := by
      intro a ha
      rw [cloneRefs_length]
      exact Nat.lt_add_right 10 (hv a ha)
    obtain ⟨hlen, hpre, hcs, hk⟩ := ih (cloneRefs s e).1 hv'
    rw [cloneRefs_length] at hlen hpre hk
    have hpre' : ∀ a, a < s.length → (cloneAll s e (n + 1)).1[a]? = s[a]? := by
      intro a ha
      simp only [cloneAll]
      rw [hpre a (by omega), cloneRefs_prefix s e a ha]
    have hes : e.value (cloneRefs s e).1 = e.value s :=
      value_congr e _ _ (fun a ha => cloneRefs_prefix s e a (hv a ha))
    refine ⟨by simp only [cloneAll]; omega, hpre', by simp only [cloneAll, List.length_cons, hcs],
      ?_⟩
    intro k c hc
    cases k with
    | zero =>
      simp only [cloneAll, List.getElem?_cons_zero, Option.some.injEq] at hc
      subst hc
      refine ⟨by simpa using cloneRefs_addrs s e, ?_⟩
      rw [← cloneRefs_value s e]
      apply value_congr
      intro a ha
      simp only [cloneAll]
      apply hpre
      rw [cloneRefs_addrs] at ha
      have := (List.mem_range'_1.mp ha).2
      omega
    | succ k =>
      simp only [cloneAll, List.getElem?_cons_succ] at hc
      obtain ⟨h1, h2⟩ := hk k c hc
      refine ⟨?_, ?_⟩
      · rw [h1]; congr 1; omega
      · simp only [cloneAll]
        rw [h2, hes]


/-- C12, on the store model: the loop makes one clone for each of `n` issues from the
canonical spec `e`. Every clone reads what the canonical spec reads (on values it is
`Editable.Clone`). A mutation of the containers of one clone (the cells behind its `Add`,
`Remove`, `Default` slices and its project-item map) changes the value of no other clone;
and after any mutation of containers of the clones, every `Editable` whose containers
were there before the loop (the canonical spec, `opts.Editable`) has the value it had
before the first clone was made. -/
theorem C12_clone_isolation (s : Store) (e : EditableRefs) (n : Nat)
    (hv : ∀ a ∈ e.addrs, a < s.length) :
    (cloneAll s e n).2.length = n ∧
    (∀ c ∈ (cloneAll s e n).2, c.value (cloneAll s e n).1 = (e.value s).Clone) ∧
    (∀ (i j : Nat) (ci cj : EditableRefs),
      (cloneAll s e n).2[i]? = some ci → (cloneAll s e n).2[j]? = some cj →
      i ≠ j → ∀ ws : List (Nat × Cell), (∀ w ∈ ws, w.1 ∈ ci.addrs) →
      cj.value ((cloneAll s e n).1.mutate ws) = cj.value (cloneAll s e n).1) ∧
    (∀ e' : EditableRefs, (∀ a ∈ e'.addrs, a < s.length) →
      ∀ ws : List (Nat × Cell), (∀ w ∈ ws, ∃ c ∈ (cloneAll s e n).2, w.1 ∈ c.addrs) →
      e'.value ((cloneAll s e n).1.mutate ws) = e'.value s) := by
  obtain ⟨_, hpre, hcs, hk⟩ := cloneAll_spec e n s hv
  refine ⟨hcs, ?_, ?_, ?_⟩
  · intro c hc
    obtain ⟨k, hkc⟩ := List.mem_iff_getElem?.mp hc
    exact (hk k c hkc).2
  · intro i j ci cj hi hj hij ws hws
    apply value_congr
    intro a ha
    apply mutate_getElem
    intro w hw hwa
    have h1 := hws w hw
    rw [(hk i ci hi).1] at h1
    rw [(hk j cj hj).1] at ha
    have b1 := List.mem_range'_1.mp h1
    have b2 := List.mem_range'_1.mp ha
    omega
  · intro e' hv' ws hws
    apply value_congr
    intro a ha
    rw [mutate_getElem ws _ a, hpre a (hv' a ha)]
    intro w hw hwa
    obtain ⟨c, hc, hwc⟩ := hws w hw
    obtain ⟨k, hkc⟩ := List.mem_iff_getElem?.mp hc
    rw [(hk k c hkc).1] at hwc
    have b1 := List.mem_range'_1.mp hwc
    have := hv' a ha
    omega

/-- C12 witness: three clones of the canonical spec of `addBug`; the labels to add of the
first clone (address 13) are overwritten: the second clone and the canonical spec still
read `["bug"]`. -/
theorem C12_clone_isolation_witness :
    (∀ a ∈ canonicalRefs.addrs, a < canonicalStore.length) ∧
    (canonicalRefs.value canonicalStore).Labels.Add = ["bug"] ∧
    (canonicalRefs.value
        ((cloneAll canonicalStore canonicalRefs 3).1.mutate [(13, .slice ["bug", "wontfix"])])
      = canonicalRefs.value canonicalStore) ∧
    (∀ c, (cloneAll canonicalStore canonicalRefs 3).2[1]? = some c →
      c.value ((cloneAll canonicalStore canonicalRefs 3).1.mutate
          [(13, .slice ["bug", "wontfix"])])
        = (canonicalRefs.value canonicalStore).Clone) :=
  ⟨by decide, rfl,
    (C12_clone_isolation canonicalStore canonicalRefs 3 (by decide)).2.2.2 canonicalRefs
      (by decide) [(13, .slice ["bug", "wontfix"])]
      (by
        intro w hw
        simp only [List.mem_singleton] at hw
        subst hw
        exact ⟨(cloneRefs canonicalStore canonicalRefs).2, by simp [cloneAll], by decide⟩),
    fun c hc => by
      have h := C12_clone_isolation canonicalStore canonicalRefs 3 (by decide)
      rw [h.2.2.1 0 1 (cloneRefs canonicalStore canonicalRefs).2 c (by simp [cloneAll]) hc
        (by decide) [(13, .slice ["bug", "wontfix"])]
        (by
          intro w hw
          simp only [List.mem_singleton] at hw
          subst hw
          decide)]
      exact h.2.1 c (List.mem_iff_getElem?.mpr ⟨1, hc⟩)⟩

end IssueEdit

namespace ReleaseList

/-! ## `fetchReleases` -/

/-- The inner loop adds the nodes that pass the filters, up to the limit. -/
theorem scanNodes_spec (L : Nat) (exD exP : Bool) (nodes : List Release) :
    ∀ acc : List Release, acc.length < L →
      scanNodes (L : Int) exD exP acc nodes =
        if L ≤ acc.length + (nodes.filter (passes exD exP)).length then
          ((acc ++ nodes.filter (passes exD exP)).take L, true)
        else (acc ++ nodes.filter (passes exD exP), false) := by
  induction nodes with
  | nil =>
    intro acc hacc
    simp [scanNodes, Nat.not_le.mpr hacc]
  | cons r nodes ih =>
    intro acc hacc
    unfold scanNodes
    by_cases hd : (exD && r.IsDraft) = true
    · have hp : passes exD exP r = false := by simp [passes, hd]
      simp only [hd, if_true, List.filter_cons, hp, Bool.false_eq_true, if_false]
      exact ih acc hacc
    · by_cases hpre : (exP && r.IsPrerelease) = true
      · have hp : passes exD exP r = false := by simp [passes, hpre]
        simp only [hd, hpre, if_true, if_false, List.filter_cons, hp, Bool.false_eq_true]
        exact ih acc hacc
      · have hp : passes exD exP r = true := by
          simp only [Bool.not_eq_true] at hd hpre
          simp [passes, hd, hpre]
        simp only [hd, hpre, if_false, Bool.false_eq_true, List.filter_cons, hp, if_true,
          List.length_append, List.length_cons, List.length_nil, Nat.zero_add]
        by_cases hfull : acc.length + 1 = L
        · have hc : ((acc.length + 1 : Nat) : Int) = (L : Int) := by exact_mod_cast hfull
          rw [if_pos hc, if_pos (by omega)]
          have : (acc ++ r :: nodes.filter (passes exD exP)).take L = acc ++ [r] := by
            rw [show acc ++ r :: nodes.filter (passes exD exP)
                = (acc ++ [r]) ++ nodes.filter (passes exD exP) by simp]
            rw [List.take_append_of_le_length (by simp; omega)]
            exact List.take_of_length_le (by simp; omega)
          rw [this]
        · have hc : ¬ (((acc.length + 1 : Nat) : Int) = (L : Int)) := by
            intro h; apply hfull; exact_mod_cast h
          rw [if_neg hc, ih (acc ++ [r]) (by simp; omega)]
          simp only [List.length_append, List.length_cons, List.length_nil, Nat.zero_add,
            List.append_assoc, List.singleton_append]
          by_cases hle : L ≤ acc.length + 1 + (nodes.filter (passes exD exP)).length
          · rw [if_pos hle, if_pos (by omega)]
          · rw [if_neg hle, if_neg (by omega)]


theorem passing_nil (exD exP : Bool) : passing exD exP [] = [] := rfl

theorem passing_cons (exD exP : Bool) (p : Page) (ps : List Page) :
    passing exD exP (p :: ps) = p.Nodes.filter (passes exD exP) ++ passing exD exP ps := by
  simp [passing]

/-- The loop over the pages: all but the last have a next page, the last has none. -/
theorem queryLoop_spec (L : Nat) (perPage : Int) (exD exP : Bool) (last : Page)
    (hlast : last.HasNextPage = false) (more : List (Except IssueEdit.Err Page))
    (xs : List Page) :
    ∀ (cursor : Option String) (acc : List Release) (reqs : List Request),
      (∀ p ∈ xs, p.HasNextPage = true) → acc.length < L →
      ∃ n, 1 ≤ n ∧ n ≤ xs.length + 1 ∧
        queryLoop (L : Int) perPage exD exP ((xs ++ [last]).map .ok ++ more) cursor acc reqs
          = some { releases := (acc ++ passing exD exP (xs ++ [last])).take L
                   err := none
                   requests := reqs ++
                     ((cursor :: (xs ++ [last]).map (fun p => some p.EndCursor)).take n).map
                       (fun c => ⟨perPage, c⟩) } ∧
        acc.length + (passing exD exP ((xs ++ [last]).take (n - 1))).length < L ∧
        (n = xs.length + 1 ∨
          L ≤ acc.length + (passing exD exP ((xs ++ [last]).take n)).length) := by
  induction xs with
  | nil =>
    intro cursor acc reqs _ hacc
    refine ⟨1, Nat.le_refl 1, by simp, ?_, by simpa [passing_nil] using hacc, Or.inl rfl⟩
    simp only [List.nil_append, List.map_cons, List.map_nil, List.cons_append, queryLoop,
      scanNodes_spec L exD exP last.Nodes acc hacc, passing_cons, passing_nil, List.append_nil,
      List.take_succ_cons, List.take_zero]
    by_cases hle : L ≤ acc.length + (last.Nodes.filter (passes exD exP)).length
    · simp only [if_pos hle]
    · simp only [if_neg hle, hlast, Bool.not_false, if_true]
      rw [List.take_of_length_le (by simp; omega)]
  | cons p xs ih =>
    intro cursor acc reqs hnext hacc
    have hp : p.HasNextPage = true := hnext p (List.mem_cons_self _ _)
    have hnext' : ∀ q ∈ xs, q.HasNextPage = true :=
      fun q hq => hnext q (List.mem_cons_of_mem _ hq)
    by_cases hle : L ≤ acc.length + (p.Nodes.filter (passes exD exP)).length
    · refine ⟨1, Nat.le_refl 1, by simp, ?_, by simpa [passing_nil] using hacc, Or.inr ?_⟩
      · have htake : (acc ++ (p.Nodes.filter (passes exD exP) ++ passing exD exP (xs ++ [last]))).take L
            = (acc ++ p.Nodes.filter (passes exD exP)).take L := by
          rw [← List.append_assoc]
          exact List.take_append_of_le_length (by simp; omega)
        simp only [List.cons_append, List.map_cons, queryLoop,
          scanNodes_spec L exD exP p.Nodes acc hacc, if_pos hle, passing_cons,
          List.take_succ_cons, List.take_zero, List.map_nil, htake]
      · simpa [passing_cons, passing_nil] using hle
    · have hacc' : (acc ++ p.Nodes.filter (passes exD exP)).length < L := by
        simp; omega
      obtain ⟨n, hn1, hn2, hq, hlt, hfin⟩ :=
        ih (some p.EndCursor) (acc ++ p.Nodes.filter (passes exD exP))
          (reqs ++ [⟨perPage, cursor⟩]) hnext' hacc'
      refine ⟨n + 1, by omega, by simp; omega, ?_, ?_, ?_⟩
      · simp only [List.cons_append, List.map_cons, queryLoop,
          scanNodes_spec L exD exP p.Nodes acc hacc, if_neg hle, hp, Bool.not_true,
          Bool.false_eq_true, if_false, List.append_eq, hq]
        simp [passing_cons]
      · obtain ⟨m, rfl⟩ : ∃ m, n = m + 1 := ⟨n - 1, by omega⟩
        simp only [Nat.add_sub_cancel, List.cons_append, List.take_succ_cons, passing_cons,
          List.length_append] at hlt ⊢
        omega
      · rcases hfin with h | h
        · left; simp [h]
        · right
          simp only [List.cons_append, List.take_succ_cons, passing_cons,
            List.length_append] at h ⊢
          omega


/-- C14: for a limit of at least 1 and a server that answers with the pages `pages` and then
`last` (every page but the last has a next page), `fetchReleases` returns, without
error, the first `limit` of the releases of these pages that pass the filters, in the
order of the server (all of them when they are fewer): never more than `limit`, and none
that the filters exclude. It makes `n` queries, one for each of the first `n` pages, each
with the page size `min(limit, 100)` and with the end cursor of the page before; before the
last of these queries the limit was not reached, and it stops before the last page only
when the limit is reached. -/
theorem C14_fetchReleases_first_limit (limit : Int) (hl : 1 ≤ limit) (exD exP : Bool)
    (pages : List Page) (last : Page) (hnext : ∀ p ∈ pages, p.HasNextPage = true)
    (hlast : last.HasNextPage = false) (more : List (Except IssueEdit.Err Page)) :
    ∃ res n, fetchReleases limit exD exP ((pages ++ [last]).map .ok ++ more) = some res ∧
      res.err = none ∧
      res.releases = (passing exD exP (pages ++ [last])).take limit.toNat ∧
      (limit.toNat : Int) = limit ∧
      res.releases.length = min limit.toNat (passing exD exP (pages ++ [last])).length ∧
      (res.releases.length : Int) ≤ limit ∧
      (∀ r ∈ res.releases, ¬(exD = true ∧ r.IsDraft = true) ∧
        ¬(exP = true ∧ r.IsPrerelease = true)) ∧
      res.requests =
        ((none :: (pages ++ [last]).map (fun p => some p.EndCursor)).take n).map
          (fun c => ⟨min limit 100, c⟩) ∧
      res.requests.length = n ∧ 1 ≤ n ∧ n ≤ pages.length + 1 ∧
      ((passing exD exP ((pages ++ [last]).take (n - 1))).length : Int) < limit ∧
      (n = pages.length + 1 ∨
        limit ≤ ((passing exD exP ((pages ++ [last]).take n)).length : Int)) := by
  obtain ⟨L, rfl⟩ : ∃ L : Nat, limit = (L : Int) :=
    ⟨limit.toNat, (Int.toNat_of_nonneg (by omega)).symm⟩
  have hL : 1 ≤ L := by exact_mod_cast hl
  have hper : (if (L : Int) > 100 then 100 else (L : Int)) = min (L : Int) 100 := by
    split <;> omega
  obtain ⟨n, hn1, hn2, hq, hlt, hfin⟩ :=
    queryLoop_spec L (min (L : Int) 100) exD exP last hlast more pages none [] []
      hnext (by simpa using hL)
  simp only [List.nil_append] at hq
  have hfetch : fetchReleases (L : Int) exD exP ((pages ++ [last]).map .ok ++ more)
      = queryLoop (L : Int) (min (L : Int) 100) exD exP ((pages ++ [last]).map .ok ++ more)
          none [] [] := by
    unfold fetchReleases
    simp only [hper]
  refine ⟨_, n, hfetch.trans hq, ?_⟩
  simp only [List.length_nil, Nat.zero_add] at hlt hfin
  have htn : ((L : Int)).toNat = L := Int.toNat_ofNat L
  rw [htn]
  refine ⟨rfl, rfl, rfl, ?_, ?_, ?_, rfl, ?_, hn1, hn2, ?_, ?_⟩
  · simp only [List.length_take]
  · simp only [List.length_take]
    exact_mod_cast Nat.min_le_left _ _
  · intro r hr
    have hmem := (List.mem_filter.mp (List.mem_of_mem_take hr)).2
    simp only [passes, Bool.and_eq_true, Bool.not_eq_true', Bool.and_eq_false_imp] at hmem
    constructor
    · rintro ⟨h1, h2⟩
      have := hmem.1 h1
      rw [h2] at this; exact absurd this (by simp)
    · rintro ⟨h1, h2⟩
      have := hmem.2 h1
      rw [h2] at this; exact absurd this (by simp)
  · simp only [List.length_map, List.length_take, List.length_cons, List.length_append,
      List.length_nil]
    omega
  · exact_mod_cast hlt
  · rcases hfin with h | h
    · exact Or.inl h
    · exact Or.inr (by exact_mod_cast h)


/-- C14 witness: limit 1 with drafts excluded, on the two pages `page1`, `page2`: the first
page holds a release that passes, so one query is made and this release is returned. -/
theorem C14_fetchReleases_first_limit_witness :
    (1 : Int) ≤ 1 ∧ (∀ p ∈ [page1], p.HasNextPage = true) ∧ page2.HasNextPage = false ∧
    fetchReleases 1 true false [.ok page1, .ok page2]
      = some { releases := [plainRelease], requests := [⟨1, none⟩] } ∧
    ∃ res n, fetchReleases 1 true false (([page1] ++ [page2]).map .ok ++ []) = some res ∧
      res.err = none ∧
      res.releases = (passing true false ([page1] ++ [page2])).take (1 : Int).toNat ∧
      res.requests.length = n :=
  ⟨by decide, by decide, rfl, rfl,
    match C14_fetchReleases_first_limit 1 (by decide) true false [page1] page2 (by decide) rfl []
    with
    | ⟨res, n, h₁, h₂, h₃, _, _, _, _, _, h₉, _⟩ => ⟨res, n, h₁, h₂, h₃, h₉⟩⟩

end ReleaseList
